import Mathlib

/-!
Verification development for the diff-driven translation-change extractor and
fuzzy line locator of the abrp-translations repository (the `utils.js` module:
`filterDiffByIgnoredFiles`, `convertToRegexPattern`, `getLineNumber`,
`getNestedValue`, `parseTranslationChangesFromDiff`).

The JavaScript source is embedded shallowly:
* JavaScript strings are Lean `String`s, scanned as `List Char`;
* the reference mapping (the parsed `en.json`) is a tree of string leaves;
* each regular expression literal of the source is compiled by hand into an
  executable Lean function that implements the backtracking behaviour of the
  JavaScript engine on that particular pattern; every such function carries a
  comment naming the pattern it implements and the source lines it comes from;
* `null`/`undefined`-or-string arguments become `Option`s or a dedicated sum
  type where the distinction matters.
-/

namespace AbrpReview

/-- The JavaScript `\s` (whitespace) character class: tab, line feed, vertical
tab, form feed, carriage return, space, and the Unicode space characters
(NBSP, Ogham space, en/em spaces, line/paragraph separator, narrow NBSP,
medium mathematical space, ideographic space, BOM). -/
def isJsWs (c : Char) : Bool :=
  c == ' ' || c == '\t' || c == '\n' || c == '\x0b' || c == '\x0c' ||
  c == '\r' || c == '\u00a0' || c == '\u1680' ||
  ('\u2000' ≤ c && c ≤ '\u200a') ||
  c == '\u2028' || c == '\u2029' || c == '\u202f' || c == '\u205f' ||
  c == '\u3000' || c == '\ufeff'

/-- The ECMAScript line terminators: `\n`, `\r`, U+2028, U+2029.  A multiline
`^` matches at index 0 and right after any of these; the `.` metacharacter
matches any character except these. -/
def isLineTerm (c : Char) : Bool :=
  c == '\n' || c == '\r' || c == '\u2028' || c == '\u2029'

/-- JavaScript `string.split(sep)` for a one-character separator: the list of
(possibly empty) chunks between occurrences of `sep`; splitting the empty
string yields `[[]]`. -/
def splitOnChar (sep : Char) : List Char → List (List Char)
  | [] => [[]]
  | c :: rest =>
    if c = sep then
      [] :: splitOnChar sep rest
    else
      match splitOnChar sep rest with
      | p :: ps => (c :: p) :: ps
      | [] => [[c]]

/-- A parsed JSON value as the reference mapping supplies it: the `en.json`
tree has string leaves and object nodes (spec §3, "Reference Mapping"). -/
inductive JsonVal where
  | str : String → JsonVal
  | obj : List (String × JsonVal) → JsonVal

/-- The top-level reference mapping: the fields of the parsed `en.json`. -/
abbrev JsonObj := List (String × JsonVal)

/-- JavaScript object property access `fields[key]` (first binding wins;
parsed JSON objects have unique keys). -/
def lookupField : List (String × JsonVal) → String → Option JsonVal
  | [], _ => none
  | (k, v) :: rest, key => if k = key then some v else lookupField rest key

/-- Hexadecimal digit for `JSON.stringify`'s `\u00XX` control escapes. -/
def hexDigit (n : Nat) : Char :=
  if n < 10 then Char.ofNat ('0'.toNat + n) else Char.ofNat ('a'.toNat + (n - 10))

/-- `JSON.stringify` escaping of one character inside a string literal. -/
def jsonEscapeChar (c : Char) : List Char :=
  if c = '"' then ['\\', '"']
  else if c = '\\' then ['\\', '\\']
  else if c = '\x08' then ['\\', 'b']
  else if c = '\x0c' then ['\\', 'f']
  else if c = '\n' then ['\\', 'n']
  else if c = '\r' then ['\\', 'r']
  else if c = '\t' then ['\\', 't']
  else if c.toNat < 32 then
    ['\\', 'u', '0', '0', hexDigit (c.toNat / 16), hexDigit (c.toNat % 16)]
  else [c]

mutual

/-- `JSON.stringify` of a reference-mapping value (no spacing argument):
`"..."` for strings, `\x7b"k":v,...\x7d` for objects. -/
def stringifyVal : JsonVal → List Char
  | .str s => '"' :: (s.data.flatMap jsonEscapeChar ++ ['"'])
  | .obj fs => '\x7b' :: (stringifyFields fs ++ ['\x7d'])

/-- Comma-separated `"key":value` serializations of an object's fields. -/
def stringifyFields : List (String × JsonVal) → List Char
  | [] => []
  | [(k, v)] =>
    '"' :: (k.data.flatMap jsonEscapeChar ++ '"' :: ':' :: stringifyVal v)
  | (k, v) :: rest =>
    ('"' :: (k.data.flatMap jsonEscapeChar ++ '"' :: ':' :: stringifyVal v))
      ++ ',' :: stringifyFields rest

end

/-- `typeof v === 'string' ? v : JSON.stringify(v)` (utils.js lines 94, 107):
a string leaf is returned verbatim, any other value is serialized. -/
def renderVal : JsonVal → String
  | .str s => s
  | v => String.mk (stringifyVal v)

/-- Shallow embedding of `getNestedValue(obj, key)` (utils.js lines 89–108).
`obj` is `none` for the JavaScript falsy arguments `null`/`undefined`
(line 90 `if (!obj) return undefined`); otherwise the direct property lookup
is tried first (lines 93–95), then the key is split on `.` and the loop of
lines 98–106 descends, embedded as a left fold over the parts that yields
`none` as soon as a part is missing or the current value is not an object. -/
def getNestedValue (obj : Option JsonObj) (key : String) : Option String :=
  match obj with
  | none => none
  | some fields =>
    match lookupField fields key with
    | some v => some (renderVal v)
    | none =>
      let parts := (splitOnChar '.' key.data).map String.mk
      let current := parts.foldl
        (fun (cur : Option JsonVal) part =>
          match cur with
          | some (.obj fs) => lookupField fs part
          | _ => none)
        (some (.obj fields))
      match current with
      | some v => some (renderVal v)
      | none => none

/-- Modelled from the spec's words (§4.4, Nested-Key Lookup), as the
refinement reference for the source-derived `getNestedValue`: descend through
the mapping along the dot-separated path segments, failing the moment a
segment is missing or the current value is not a traversable structure. -/
def descend : JsonVal → List String → Option JsonVal
  | v, [] => some v
  | .obj fs, p :: ps =>
    match lookupField fs p with
    | some v => descend v ps
    | none => none
  | .str _, _ :: _ => none

/-- Modelled from the spec's words (§4.4): first try the key as a direct flat
lookup; if absent, interpret it as dot-separated segments and descend; return
a textual leaf verbatim and serialize a structured value. -/
def lookupSpec (fields : JsonObj) (key : String) : Option String :=
  match lookupField fields key with
  | some v => some (renderVal v)
  | none =>
    (descend (.obj fields) ((splitOnChar '.' key.data).map String.mk)).map renderVal

/-- The fold of `getNestedValue` stays `none` once it has failed. -/
theorem foldl_step_none (l : List String) :
    l.foldl
      (fun (cur : Option JsonVal) part =>
        match cur with
        | some (.obj fs) => lookupField fs part
        | _ => none)
      none = none := by
  induction l with
  | nil => rfl
  | cons q qs ihq => simpa using ihq

/-- The descent loop of `getNestedValue`, written as a fold, agrees with the
structural `descend` of the spec. -/
theorem foldl_step_eq_descend (parts : List String) (v : JsonVal) :
    parts.foldl
      (fun (cur : Option JsonVal) part =>
        match cur with
        | some (.obj fs) => lookupField fs part
        | _ => none)
      (some v) = descend v parts := by
  induction parts generalizing v with
  | nil => cases v <;> rfl
  | cons p ps ih =>
    cases v with
    | str s =>
      simp only [List.foldl_cons, descend]
      exact foldl_step_none ps
    | obj fs =>
      simp only [List.foldl_cons, descend]
      cases h : lookupField fs p with
      | none => simpa [h] using foldl_step_none ps
      | some w => simpa [h] using ih w

/-- `getNestedValue` on a present mapping computes exactly the spec-side
nested-key lookup. -/
theorem getNestedValue_eq_lookupSpec (fields : JsonObj) (key : String) :
    getNestedValue (some fields) key = lookupSpec fields key := by
  simp only [getNestedValue, lookupSpec, foldl_step_eq_descend]
  cases h : lookupField fields key with
  | some v => rfl
  | none =>
    cases hd : descend (.obj fields) ((splitOnChar '.' key.data).map String.mk) <;>
      simp [hd]

/-! ## The pattern compiler and fuzzy matcher
(`convertToRegexPattern`, utils.js lines 46–50, and `getLineNumber`,
utils.js lines 61–84). -/

/-- The characters escaped by `convertToRegexPattern`'s first `replace`:
dot star plus question caret equals bang colon dollar braces parens pipe
brackets slash hyphen (the class of utils.js line 48). -/
def isSpecialChar (c : Char) : Bool :=
  c == '.' || c == '*' || c == '+' || c == '?' || c == '^' || c == '=' ||
  c == '!' || c == ':' || c == '$' || c == '\x7b' || c == '\x7d' ||
  c == '(' || c == ')' || c == '|' || c == '[' || c == ']' || c == '/' ||
  c == '-'

/-- One character of the first `replace` pass: a special character becomes
backslash-character, everything else is kept. -/
def escChar (c : Char) : List Char :=
  if isSpecialChar c then ['\\', c] else [c]

/-- The first `replace` of utils.js line 48: escape each special-character
occurrence with a backslash. -/
def escapePass (cs : List Char) : List Char := cs.flatMap escChar

/-- `pattern.replace(/\s+/g, '\\s+')` (utils.js line 49), scanned with a
flag recording whether the previous character belonged to a whitespace run:
each maximal run of JavaScript whitespace becomes the three characters
`\s+`. -/
def wsCollapseAux : Bool → List Char → List Char
  | _, [] => []
  | inRun, c :: rest =>
    if isJsWs c then
      if inRun then wsCollapseAux true rest
      else '\\' :: 's' :: '+' :: wsCollapseAux true rest
    else c :: wsCollapseAux false rest

/-- Shallow embedding of `convertToRegexPattern(input)` (utils.js lines
46–50): escape the special characters, then collapse whitespace runs. -/
def convertToRegexPattern (input : String) : String :=
  String.mk (wsCollapseAux false (escapePass input.data))

/-- One token of the little pattern language that `convertToRegexPattern`
emits: a literal character, the single-whitespace class `\s`, or the
one-or-more-whitespace wildcard `\s+`. -/
inductive Tok where
  | lit : Char → Tok
  | wsOne : Tok
  | wsPlus : Tok
deriving DecidableEq

/-- Reading of the compiled pattern string under the JavaScript regex
engine, for the pattern grammar `convertToRegexPattern` emits: `\s+` is the
one-or-more-whitespace wildcard, `\s` (a backslash the snippet itself
contained, followed by `s`) is the single-whitespace class, and a backslash
followed by any other character is read as that literal character (this is
exact for the escaped special characters; for a raw snippet backslash
followed by another regex class letter the engine's class semantics is
approximated by the literal letter, a case outside every theorem below). -/
def parsePattern : List Char → List Tok
  | [] => []
  | '\\' :: 's' :: '+' :: rest => .wsPlus :: parsePattern rest
  | '\\' :: 's' :: rest => .wsOne :: parsePattern rest
  | '\\' :: c :: rest => .lit c :: parsePattern rest
  | c :: rest => .lit c :: parsePattern rest

/-- Modelled from the spec's words (§4.1, Pattern Compiler), as the
refinement reference for the compiled pattern: every maximal whitespace run
of the snippet becomes one one-or-more-whitespace wildcard and every other
character anchors itself literally, in order (scanned with an
inside-a-run flag like `wsCollapseAux`). -/
def snippetToksAux : Bool → List Char → List Tok
  | _, [] => []
  | inRun, c :: rest =>
    if isJsWs c then
      if inRun then snippetToksAux true rest
      else .wsPlus :: snippetToksAux true rest
    else .lit c :: snippetToksAux false rest

/-- The spec-side tokenization of a snippet. -/
def snippetToks (cs : List Char) : List Tok := snippetToksAux false cs

/-- Length of the whitespace run at the head of `cs`. -/
def wsRunLen (cs : List Char) : Nat := (cs.takeWhile isJsWs).length

/-- Greedy backtracking for `\s*` before a continuation `f`: try consuming
`k` characters first (the whole whitespace run), then ever shorter runs,
returning the total matched length on the first success — the JavaScript
engine's preference order for a greedy quantifier. -/
def downTry (f : List Char → Option Nat) (cs : List Char) : Nat → Option Nat
  | 0 => f cs
  | k + 1 =>
    match f (cs.drop (k + 1)) with
    | some n => some (k + 1 + n)
    | none => downTry f cs k

/-- Matching the compiled token pattern against a prefix of `cs`, returning
the length of the matched prefix, with the JavaScript engine's backtracking
order: a `\s+` consumes one whitespace character and then greedily as much
more whitespace as possible, backtracking to shorter runs on failure. -/
def matchFrom : List Tok → List Char → Option Nat
  | [], _ => some 0
  | .lit c :: ts, cs =>
    match cs with
    | [] => none
    | c' :: cs' => if c' = c then (matchFrom ts cs').map (· + 1) else none
  | .wsOne :: ts, cs =>
    match cs with
    | [] => none
    | c :: cs' => if isJsWs c then (matchFrom ts cs').map (· + 1) else none
  | .wsPlus :: ts, cs =>
    match cs with
    | [] => none
    | c :: cs' =>
      if isJsWs c then
        (downTry (fun l => matchFrom ts l) cs' (wsRunLen cs')).map (· + 1)
      else none

/-- Leftmost search of `regex.exec(text)`: try the pattern at index 0, then
at each later index, returning the match's start index and length. -/
def regexExecAux (ts : List Tok) : List Char → Option (Nat × Nat)
  | [] => (matchFrom ts []).map (fun n => (0, n))
  | c :: cs' =>
    match matchFrom ts (c :: cs') with
    | some n => some (0, n)
    | none => (regexExecAux ts cs').map (fun p => (p.1 + 1, p.2))

/-- Number of `'\n'` characters in the list; JavaScript's
`str.split('\n').length` is this count plus one. -/
def countNl (cs : List Char) : Nat := cs.count '\n'

/-- Shallow embedding of `getLineNumber(text, searchString)` (utils.js lines
61–84).  The falsy guard of line 62 returns `-1` for an empty (or absent)
argument; otherwise the snippet is compiled (line 66–67), searched (line 68),
and on a match the result is `startLine + matchedLineCount - 1` where
`startLine` counts the newlines before the match start plus one (lines
76–77) and `matchedLineCount` counts the newlines inside the matched text
plus one (line 80). -/
def getLineNumber (text searchString : String) : Int :=
  if text = "" ∨ searchString = "" then -1
  else
    match regexExecAux (parsePattern (convertToRegexPattern searchString).data)
        text.data with
    | none => -1
    | some (idx, len) =>
      let startLine := countNl (text.data.take idx) + 1
      let matchedLineCount := countNl ((text.data.drop idx).take len) + 1
      ((startLine + matchedLineCount - 1 : Nat) : Int)

/-- Syntactic validity of a compiled pattern under the JavaScript `RegExp`
constructor, for the pattern grammar `convertToRegexPattern` emits: a
backslash must be followed by a character (`new RegExp` raises a
SyntaxError, "backslash at end of pattern", otherwise) and a character
class opened by an unescaped opening bracket must be closed by an
unescaped closing bracket before the pattern ends ("unterminated character
class"). The flag records being inside a class. The remaining SyntaxError
sources of the engine cannot occur in `convertToRegexPattern`'s image:
quantifiers, parentheses, braces and hyphens always arrive
backslash-escaped by the first replace pass, so lone quantifiers,
unbalanced groups, bad repetition counts and reversed class ranges are all
impossible there, and with the web-compatibility grammar every other
escape sequence is accepted. -/
def scanPat : Bool → List Char → Bool
  | inClass, [] => !inClass
  | _, ['\\'] => false
  | inClass, '\\' :: _ :: rest => scanPat inClass rest
  | false, '[' :: rest => scanPat true rest
  | true, ']' :: rest => scanPat false rest
  | inClass, _ :: rest => scanPat inClass rest

/-- `new RegExp(p)` succeeds on the pattern string `p`. -/
def regexSyntaxOk (p : String) : Bool := scanPat false p.data

/-- Exception-aware shallow embedding of `getLineNumber` (utils.js lines
61–84): the falsy guard of lines 62–64 returns `-1` before any pattern is
built; then `new RegExp(regexPattern)` on line 67 throws on a
syntactically invalid pattern — the function returns nothing at all,
`Except.error ()` — and otherwise the call returns normally with the value
computed by `getLineNumber`. -/
def getLineNumberE (text searchString : String) : Except Unit Int :=
  if text = "" ∨ searchString = "" then .ok (-1)
  else if regexSyntaxOk (convertToRegexPattern searchString) then
    .ok (getLineNumber text searchString)
  else .error ()

/-! ## Diff sectioning and the change extractor
(`parseTranslationChangesFromDiff`, utils.js lines 114–158). -/

/-- `diff.split(/^diff --git/m)` (utils.js line 118), scanned with a flag
recording whether the current position is a line start (index 0 or right
after a line terminator): each occurrence of the ten characters
`diff --git` at a line start is a delimiter separating two pieces.  The
accumulator holds the current piece reversed. -/
def splitSectionsAux : Bool → List Char → List Char → List (List Char)
  | _, acc, [] => [acc.reverse]
  | true, acc, 'd' :: 'i' :: 'f' :: 'f' :: ' ' :: '-' :: '-' :: 'g' :: 'i' :: 't' :: rest =>
    acc.reverse :: splitSectionsAux false [] rest
  | _, acc, c :: rest => splitSectionsAux (isLineTerm c) (c :: acc) rest

/-- The pieces of `diff.split(/^diff --git/m)`. -/
def splitSections (cs : List Char) : List (List Char) := splitSectionsAux true [] cs

/-- One attempt, at a fixed start position, of the section-header path regex
`/\s+"?b\/([^"\s]+\.json)"?\s*$/` of utils.js line 124.  The attempt must
start on whitespace; `\s+` greedily eats the whole whitespace run (a shorter
run would leave a whitespace character where `"` or `b` is required), an
optional quote is consumed if present (skipping it could only put `b` on a
quote), then after `b/` the capture group greedily takes the maximal run of
non-quote non-whitespace characters, which must end in `.json` with a
non-empty stem; the tail of the line must then be an optional quote followed
by whitespace only. -/
def bTryAt (cs : List Char) : Option (List Char) :=
  let run := cs.takeWhile isJsWs
  if run.isEmpty then none
  else
    let rest := cs.drop run.length
    let rest1 := if rest.head? = some '"' then rest.tail else rest
    if rest1.head? = some 'b' ∧ rest1.tail.head? = some '/' then
      let tail := rest1.tail.tail
      let t := tail.takeWhile (fun c => !(isJsWs c) && c != '"')
      if ".json".toList.isSuffixOf t && decide (6 ≤ t.length) then
        let after := tail.drop t.length
        if after.isEmpty then some t
        else if after.head? = some '"' then
          if after.tail.all isJsWs then some t else none
        else if after.all isJsWs then some t else none
      else none
    else none

/-- `firstLine.match(/\s+"?b\/([^"\s]+\.json)"?\s*$/)` (utils.js line 124):
the capture of the leftmost successful attempt. -/
def bPathMatch : List Char → Option (List Char)
  | [] => none
  | c :: rest =>
    match bTryAt (c :: rest) with
    | some t => some t
    | none => bPathMatch rest

/-- The characters of `l` strictly before its last `'"'`, or `none` if `l`
has no quote: the greedy `(.*)"` backtracks to the last quote. -/
def beforeLastQuote : List Char → Option (List Char)
  | [] => none
  | c :: rest =>
    match beforeLastQuote rest with
    | some v => some (c :: v)
    | none => if c = '"' then some [] else none

/-- `content.match(/^\s*"([^"]+)":\s*"(.*)"/)` (utils.js line 140): leading
whitespace, a quoted non-empty key (up to the next quote), an immediate
colon, optional whitespace, and a quoted value whose greedy `.*` runs to the
last quote of the line (the `.` metacharacter cannot cross a line
terminator, so only the terminator-free prefix is searched for that
quote). -/
def kvExtract (content : List Char) : Option (List Char × List Char) :=
  match content.dropWhile isJsWs with
  | '"' :: t1 =>
    let key := t1.takeWhile (fun c => c != '"')
    if key.isEmpty then none
    else
      match t1.drop key.length with
      | '"' :: ':' :: t3 =>
        match t3.dropWhile isJsWs with
        | '"' :: t5 =>
          (beforeLastQuote (t5.takeWhile (fun c => !(isLineTerm c)))).map
            (fun v => (key, v))
        | _ => none
      | _ => none
  | _ => none

/-- A Translation Change Record (spec §3): one extracted added translation
entry. -/
structure TranslationChange where
  file : String
  key : String
  value : String
  englishValue : String
  line : String
deriving DecidableEq

/-- The literal sentinel substituted when the reference lookup yields no
usable value (utils.js line 149). -/
def sentinel : String := "(no English source found)"

/-- JavaScript `englishValue || '(no English source found)'` (utils.js line
149): the lookup result if it is truthy, the sentinel if the lookup returned
`undefined` — or the empty string, which is falsy. -/
def jsOrSentinel : Option String → String
  | some s => if s = "" then sentinel else s
  | none => sentinel

/-- The record pushed by utils.js lines 145–151 for an added line whose
content (the line with its leading `+` removed) matched the key/value
shape. -/
def mkRecord (ref : JsonObj) (fp k v content : List Char) : TranslationChange :=
  { file := String.mk fp
    key := String.mk k
    value := String.mk v
    englishValue := jsOrSentinel (getNestedValue (some ref) (String.mk k))
    line := String.mk content }

/-- The designated source-language file name `'en.json'` (utils.js line
130), as a character list. -/
def enJson : List Char := "en.json".data

/-- `line.startsWith('+') && !line.startsWith('+++')` (utils.js line 136). -/
def isAddedMarked (line : List Char) : Bool :=
  ['+'].isPrefixOf line && !(['+', '+', '+'].isPrefixOf line)

/-- `filePath.endsWith('.json')` on the raw character list. -/
def jsonDotSuffix (fp : List Char) : Bool := ".json".toList.isSuffixOf fp

/-- Shallow embedding of `parseTranslationChangesFromDiff(diff,
englishTranslations)` (utils.js lines 114–158): split the diff into sections
(line 118, dropping empty pieces like `.filter(Boolean)`), and for each
section with a matching first-line destination path (lines 122–127) that
ends in `.json` and is not `en.json` (line 130), push one record per added
line whose content matches the key/value shape (lines 133–153).  The two
nested `for` loops pushing into the single `changes` array become two nested
left folds over the same accumulator. -/
def parseTranslationChangesFromDiff (diff : String) (englishTranslations : JsonObj) :
    List TranslationChange :=
  let fileSections := (splitSections diff.data).filter (fun s => !s.isEmpty)
  fileSections.foldl
    (fun changes sec =>
      let firstLine := sec.takeWhile (fun c => c != '\n')
      match bPathMatch firstLine with
      | none => changes
      | some fp =>
        if !(jsonDotSuffix fp) || fp = enJson then changes
        else
          (splitOnChar '\n' sec).foldl
            (fun changes line =>
              if isAddedMarked line then
                match kvExtract (line.drop 1) with
                | some kv =>
                  changes ++ [mkRecord englishTranslations fp kv.1 kv.2 (line.drop 1)]
                | none => changes
              else changes)
            changes)
    []

/-- Modelled from the spec's words (§4.5), as the refinement reference for
the source-derived parser: a section is retained when its first line yields
a destination path ending in `.json` other than the source-language file. -/
def retainedPath (sec : List Char) : Option (List Char) :=
  match bPathMatch (sec.takeWhile (fun c => c != '\n')) with
  | some fp =>
    if jsonDotSuffix fp ∧ fp ≠ enJson then some fp else none
  | none => none

/-- Modelled from the spec's words (§4.5): the record of one qualifying
added line — a line beginning with the addition marker `+`, not the
three-character `+++` banner, whose content after the marker matches the
key/value shape — with `line` the content after the marker. -/
def addedRecord (ref : JsonObj) (fp : List Char) (line : List Char) :
    Option TranslationChange :=
  if isAddedMarked line then
    (kvExtract (line.drop 1)).map
      (fun kv => mkRecord ref fp kv.1 kv.2 (line.drop 1))
  else none

/-- Modelled from the spec's words (§4.5, `extract`): one record per
qualifying added line of each retained section, in section order and
within-section line order. -/
def extractSpec (diff : String) (ref : JsonObj) : List TranslationChange :=
  ((splitSections diff.data).filter (fun s => !s.isEmpty)).flatMap
    (fun sec =>
      match retainedPath sec with
      | none => []
      | some fp => (splitOnChar '\n' sec).filterMap (addedRecord ref fp))

/-! ## The diff path filter
(`ignoredRegex`, utils.js lines 1–6, and `filterDiffByIgnoredFiles`,
utils.js lines 14–40). -/

/-- A JavaScript string argument that may also be `null` or `undefined`;
`filterDiffByIgnoredFiles` returns falsy inputs unchanged, preserving which
falsy value it received. -/
inductive JsStr where
  | jsNull : JsStr
  | jsUndef : JsStr
  | str : String → JsStr
deriving DecidableEq

/-- Anchored match of one alternative of `ignoredRegex` against the whole
path: the pattern character `.` (unescaped in `IGNORED_FILES`) matches any
single character except a line terminator, every other pattern character
matches itself. -/
def dotMatch : List Char → List Char → Bool
  | [], [] => true
  | p :: ps, c :: cs =>
    (if p = '.' then !(isLineTerm c) else p == c) && dotMatch ps cs
  | _, _ => false

/-- Shallow embedding of
`ignoredRegex = new RegExp(`^(${IGNORED_FILES.join('|')})$|^node_modules/`)`
(utils.js lines 1–6) applied with `.test(path)`: the whole path matches one
of the three `IGNORED_FILES` names (with their unescaped `.` a wildcard), or
the path starts with `node_modules/`. -/
def ignoredTest (p : List Char) : Bool :=
  dotMatch "package.json".toList p ||
  dotMatch "package-lock.json".toList p ||
  dotMatch "yarn.lock".toList p ||
  "node_modules/".toList.isPrefixOf p

/-- The suffix of the filter's header regex
`/^diff --git "?a\/(.+?)"? "?b\/(.+?)"?$/gm` (utils.js line 17) after the
lazy first group: an optional quote (consumed if present — skipping it would
put the mandatory space on a quote), the space, another optional quote
(consumed if present — skipping it would put `b` on a quote), `b/`, and then
the lazy second group runs to the end of the line, the final quote being
consumed by the trailing `"?` when the line ends in one (the shortest lazy
extension that lets `"?$` succeed). -/
def hdrTrySuffix (xs : List Char) : Option (List Char) :=
  let x1 := match xs with | '"' :: r => r | r => r
  match x1 with
  | ' ' :: x2 =>
    let x3 := match x2 with | '"' :: r => r | r => r
    match x3 with
    | 'b' :: '/' :: t =>
      if t.isEmpty then none
      else if 2 ≤ t.length ∧ t.getLast? = some '"' then some t.dropLast
      else some t
    | _ => none
  | _ => none

/-- Lazy expansion of the first group `(.+?)`: the group takes at least one
character, and grows one character at a time until the suffix of the pattern
matches what remains. -/
def hdrG1Loop : List Char → Option (List Char)
  | [] => none
  | _ :: rest =>
    match hdrTrySuffix rest with
    | some p => some p
    | none => hdrG1Loop rest

/-- Whether a whole line matches the filter's header regex, and if so the
second (destination) capture: the literal `diff --git `, an optional quote
(consumed if present — skipping it would put `a` on a quote), `a/`, then the
lazy first group and the suffix. -/
def headerBPath (line : List Char) : Option (List Char) :=
  match line with
  | 'd' :: 'i' :: 'f' :: 'f' :: ' ' :: '-' :: '-' :: 'g' :: 'i' :: 't' :: ' ' :: r0 =>
    let r1 := match r0 with | '"' :: r => r | r => r
    match r1 with
    | 'a' :: '/' :: r2 => hdrG1Loop r2
    | _ => none
  | _ => none

/-- `path.replace(/^"|"$/g, '')` (utils.js line 22): drop one leading and
one trailing quote if present. -/
def stripQuotes (p : List Char) : List Char :=
  let p1 := match p with | '"' :: r => r | r => r
  if p1.getLast? = some '"' then p1.dropLast else p1

/-- The lines of the text together with the index of their first character;
a line is a maximal run free of line terminators, so `^` matches exactly at
the recorded indices.  The accumulator holds the current line reversed. -/
def lineSplit : Nat → List Char → List Char → List (Nat × List Char)
  | start, acc, [] => [(start, acc.reverse)]
  | start, acc, c :: rest =>
    if isLineTerm c then
      (start, acc.reverse) :: lineSplit (start + acc.length + 1) [] rest
    else lineSplit start (c :: acc) rest

/-- The `while ((m = headerRegex.exec(diff)) !== null)` loop of utils.js
lines 18–24: since the pattern is anchored to whole lines, its successive
matches are exactly the lines matching `headerBPath`, each contributing its
start index `m.index` and its quote-stripped destination path. -/
def headerScan (cs : List Char) : List (Nat × List Char) :=
  (lineSplit 0 [] cs).filterMap
    (fun il => (headerBPath il.2).map (fun g2 => (il.1, stripQuotes g2)))

/-- The result-building loop of utils.js lines 31–38: for each match, the
span runs from its index up to the next match's index (or the end), and is
appended unless its path is ignored. -/
def buildSpans (cs : List Char) : List (Nat × List Char) → List Char
  | [] => []
  | (idx, path) :: rest =>
    let endIdx := match rest with | (idx2, _) :: _ => idx2 | [] => cs.length
    (if ignoredTest path then [] else (cs.take endIdx).drop idx) ++
      buildSpans cs rest

/-- Shallow embedding of `filterDiffByIgnoredFiles(diff)` (utils.js lines
14–40): falsy inputs (`null`, `undefined`, the empty string) are returned
unchanged (line 15), a diff without header matches is returned unchanged
(line 25), and otherwise the preamble before the first match (lines 28–30)
is followed by the kept spans (lines 31–38). -/
def filterDiffByIgnoredFiles : JsStr → JsStr
  | .jsNull => .jsNull
  | .jsUndef => .jsUndef
  | .str d =>
    if d = "" then .str d
    else
      match headerScan d.data with
      | [] => .str d
      | m0 :: ms =>
        let pre := if 0 < m0.1 then d.data.take m0.1 else []
        .str (String.mk (pre ++ buildSpans d.data (m0 :: ms)))

/-- Modelled from the spec's words (§4.3): the spans of the diff, one per
header, each running from its header up to the next header or the end of
the text, paired with the header's destination path. -/
def spansOf (cs : List Char) : List (Nat × List Char) → List (List Char × List Char)
  | [] => []
  | (idx, path) :: rest =>
    let endIdx := match rest with | (idx2, _) :: _ => idx2 | [] => cs.length
    (path, (cs.take endIdx).drop idx) :: spansOf cs rest

/-- Modelled from the spec's words (§4.3, Diff Path Filter): keep the
preamble verbatim, then the spans whose destination path is not ignored,
verbatim and in order; a diff with no recognizable header is returned
unchanged. -/
def filterSpecStr (d : String) : String :=
  match headerScan d.data with
  | [] => d
  | (i0, _) :: _ =>
    String.mk (d.data.take i0 ++
      (((spansOf d.data (headerScan d.data)).filter
        (fun sp => !(ignoredTest sp.1))).map (fun sp => sp.2)).flatten)

/-! ## Metatheory of the fuzzy matcher: what the token pattern accepts. -/

/-- The declarative meaning of a token pattern: `lit c` matches exactly `c`,
`wsOne` matches exactly one whitespace character, `wsPlus` matches a
non-empty run of whitespace characters. -/
inductive TokMatches : List Tok → List Char → Prop where
  | nil : TokMatches [] []
  | lit {c : Char} {ts : List Tok} {cs : List Char} :
      TokMatches ts cs → TokMatches (.lit c :: ts) (c :: cs)
  | one {c : Char} {ts : List Tok} {cs : List Char} :
      isJsWs c = true → TokMatches ts cs → TokMatches (.wsOne :: ts) (c :: cs)
  | plus {w : List Char} {ts : List Tok} {cs : List Char} :
      w ≠ [] → (∀ c ∈ w, isJsWs c = true) → TokMatches ts cs →
      TokMatches (.wsPlus :: ts) (w ++ cs)

/-- The pattern matches somewhere at offset `i` of `cs`: some prefix of
`cs.drop i` is accepted. -/
def MatchesAt (ts : List Tok) (cs : List Char) (i : Nat) : Prop :=
  ∃ u, u <+: cs.drop i ∧ TokMatches ts u

theorem downTry_spec (f : List Char → Option Nat) (cs : List Char) :
    ∀ k m, downTry f cs k = some m →
      ∃ j, j ≤ k ∧ ∃ n, f (cs.drop j) = some n ∧ m = j + n := by
  intro k
  induction k with
  | zero =>
    intro m hm
    exact ⟨0, Nat.le_refl 0, m, by simpa [downTry] using hm, by omega⟩
  | succ k ih =>
    intro m hm
    rw [downTry] at hm
    cases hf : f (cs.drop (k + 1)) with
    | some n =>
      rw [hf] at hm
      exact ⟨k + 1, Nat.le_refl _, n, hf, by simpa using hm.symm⟩
    | none =>
      rw [hf] at hm
      obtain ⟨j, hj, n, hfn, hmn⟩ := ih m hm
      exact ⟨j, Nat.le_succ_of_le hj, n, hfn, hmn⟩

theorem downTry_complete (f : List Char → Option Nat) (cs : List Char) :
    ∀ k, (∃ j, j ≤ k ∧ (f (cs.drop j)).isSome) → (downTry f cs k).isSome := by
  intro k
  induction k with
  | zero =>
    rintro ⟨j, hj, hf⟩
    interval_cases j
    simpa [downTry] using hf
  | succ k ih =>
    rintro ⟨j, hj, hf⟩
    rw [downTry]
    cases hfk : f (cs.drop (k + 1)) with
    | some n => simp
    | none =>
      simp only []
      apply ih
      rcases Nat.lt_or_ge j (k + 1) with h | h
      · exact ⟨j, by omega, hf⟩
      · have : j = k + 1 := by omega
        subst this
        rw [hfk] at hf
        simp at hf

@[simp] theorem matchFrom_nil_toks (cs : List Char) : matchFrom [] cs = some 0 := rfl

@[simp] theorem matchFrom_lit_nil (c : Char) (ts : List Tok) :
    matchFrom (.lit c :: ts) [] = none := rfl

@[simp] theorem matchFrom_lit_cons (c : Char) (ts : List Tok) (c' : Char) (cs : List Char) :
    matchFrom (.lit c :: ts) (c' :: cs) =
      if c' = c then (matchFrom ts cs).map (· + 1) else none := rfl

@[simp] theorem matchFrom_one_nil (ts : List Tok) : matchFrom (.wsOne :: ts) [] = none := rfl

@[simp] theorem matchFrom_one_cons (ts : List Tok) (c : Char) (cs : List Char) :
    matchFrom (.wsOne :: ts) (c :: cs) =
      if isJsWs c then (matchFrom ts cs).map (· + 1) else none := rfl

@[simp] theorem matchFrom_plus_nil (ts : List Tok) : matchFrom (.wsPlus :: ts) [] = none := rfl

@[simp] theorem matchFrom_plus_cons (ts : List Tok) (c : Char) (cs : List Char) :
    matchFrom (.wsPlus :: ts) (c :: cs) =
      if isJsWs c then
        (downTry (fun l => matchFrom ts l) cs (wsRunLen cs)).map (· + 1)
      else none := rfl

/-- `takeWhile` never lengthens a list. -/
theorem length_takeWhile_le' (p : Char → Bool) (l : List Char) :
    (l.takeWhile p).length ≤ l.length := by
  induction l with
  | nil => simp
  | cons c cs ih =>
    rw [List.takeWhile_cons]
    by_cases h : p c <;> simp [h] <;> omega

/-- If `j` does not exceed the length of the whitespace run at the head of
`l`, the first `j` characters of `l` are whitespace. -/
theorem take_ws_of_le_runLen (l : List Char) (j : Nat) (hj : j ≤ wsRunLen l) :
    ∀ c ∈ l.take j, isJsWs c = true := by
  induction l generalizing j with
  | nil => simp
  | cons c cs ih =>
    cases j with
    | zero => simp
    | succ j =>
      rw [wsRunLen, List.takeWhile_cons] at hj
      by_cases hc : isJsWs c
      · simp only [hc, if_true, List.length_cons] at hj
        intro x hx
        rcases List.mem_cons.mp (by simpa using hx) with h | h
        · subst h; exact hc
        · exact ih j (by simpa [wsRunLen] using Nat.le_of_succ_le_succ hj) x h
      · simp [hc] at hj

/-- A whitespace prefix of `l` is no longer than the whitespace run at the
head of `l`. -/
theorem runLen_ge_of_ws_prefix (u l : List Char) (hu : ∀ c ∈ u, isJsWs c = true)
    (hpre : u <+: l) : u.length ≤ wsRunLen l := by
  induction u generalizing l with
  | nil => simp
  | cons c u' ih =>
    obtain ⟨t, ht⟩ := hpre
    subst ht
    simp only [List.cons_append]
    rw [wsRunLen, List.takeWhile_cons]
    have hc : isJsWs c = true := hu c (by simp)
    simp only [hc, if_true, List.length_cons]
    have := ih (u' ++ t) (fun x hx => hu x (by simp [hx])) ⟨t, rfl⟩
    rw [wsRunLen] at this
    omega

/-- Soundness of the matcher: a successful match of length `n` means the
pattern accepts the first `n` characters. -/
theorem matchFrom_sound (ts : List Tok) :
    ∀ cs n, matchFrom ts cs = some n → n ≤ cs.length ∧ TokMatches ts (cs.take n) := by
  induction ts with
  | nil =>
    intro cs n h
    rw [matchFrom_nil_toks] at h
    cases h
    exact ⟨Nat.zero_le _, TokMatches.nil⟩
  | cons t ts ih =>
    intro cs n h
    cases t with
    | lit c =>
      cases cs with
      | nil => simp at h
      | cons c' cs' =>
        rw [matchFrom_lit_cons] at h
        by_cases hc : c' = c
        · simp only [hc, if_true] at h
          cases hm : matchFrom ts cs' with
          | none => rw [hm] at h; cases h
          | some n' =>
            rw [hm] at h
            cases h
            obtain ⟨hlen, htm⟩ := ih cs' n' hm
            subst hc
            exact ⟨by simpa using Nat.succ_le_succ hlen,
              by simpa [List.take_cons] using TokMatches.lit htm⟩
        · simp [hc] at h
    | wsOne =>
      cases cs with
      | nil => simp at h
      | cons c' cs' =>
        rw [matchFrom_one_cons] at h
        by_cases hc : isJsWs c'
        · simp only [hc, if_true] at h
          cases hm : matchFrom ts cs' with
          | none => rw [hm] at h; cases h
          | some n' =>
            rw [hm] at h
            cases h
            obtain ⟨hlen, htm⟩ := ih cs' n' hm
            exact ⟨by simpa using Nat.succ_le_succ hlen,
              by simpa [List.take_cons] using TokMatches.one hc htm⟩
        · simp [hc] at h
    | wsPlus =>
      cases cs with
      | nil => simp at h
      | cons c' cs' =>
        rw [matchFrom_plus_cons] at h
        by_cases hc : isJsWs c'
        · simp only [hc, if_true] at h
          cases hd : downTry (fun l => matchFrom ts l) cs' (wsRunLen cs') with
          | none => rw [hd] at h; cases h
          | some m =>
            rw [hd] at h
            cases h
            obtain ⟨j, hj, n₂, hfn, hmn⟩ := downTry_spec _ cs' _ m hd
            obtain ⟨hlen₂, htm₂⟩ := ih (cs'.drop j) n₂ hfn
            subst hmn
            constructor
            · have hrl : wsRunLen cs' ≤ cs'.length := by
                rw [wsRunLen]
                exact length_takeWhile_le' _ _
              simp only [List.length_cons, List.length_drop] at *
              omega
            · have hsplit : (c' :: cs').take (j + n₂ + 1) =
                  (c' :: cs'.take j) ++ (cs'.drop j).take n₂ := by
                simp [List.take_cons, List.take_add]
              rw [hsplit]
              exact TokMatches.plus (by simp)
                (by
                  intro x hx
                  rcases List.mem_cons.mp hx with hx | hx
                  · subst hx; exact hc
                  · exact take_ws_of_le_runLen cs' j hj x hx)
                htm₂
        · simp [hc] at h

/-- Completeness of the matcher: if the pattern accepts some prefix of
`cs`, the (greedy, backtracking) matcher succeeds on `cs`. -/
theorem matchFrom_complete (ts : List Tok) (u cs : List Char)
    (hm : TokMatches ts u) (hpre : u <+: cs) : (matchFrom ts cs).isSome := by
  induction hm generalizing cs with
  | nil => simp
  | @lit c ts' u' _ ih =>
    obtain ⟨t, ht⟩ := hpre
    subst ht
    simp only [List.cons_append, matchFrom_lit_cons, if_pos rfl]
    have := ih (u' ++ t) ⟨t, rfl⟩
    cases hm2 : matchFrom ts' (u' ++ t) with
    | none => rw [hm2] at this; simp at this
    | some n => simp
  | @one c ts' u' hc _ ih =>
    obtain ⟨t, ht⟩ := hpre
    subst ht
    simp only [List.cons_append, matchFrom_one_cons, hc, if_true]
    have := ih (u' ++ t) ⟨t, rfl⟩
    cases hm2 : matchFrom ts' (u' ++ t) with
    | none => rw [hm2] at this; simp at this
    | some n => simp
  | @plus w ts' u' hw hws _ ih =>
    obtain ⟨t, ht⟩ := hpre
    cases w with
    | nil => exact absurd rfl hw
    | cons c w' =>
      subst ht
      have hc : isJsWs c = true := hws c (by simp)
      simp only [List.cons_append, List.append_assoc, matchFrom_plus_cons, hc, if_true]
      have hj : w'.length ≤ wsRunLen (w' ++ (u' ++ t)) :=
        runLen_ge_of_ws_prefix w' _ (fun x hx => hws x (by simp [hx])) ⟨u' ++ t, rfl⟩
      have hdrop : (w' ++ (u' ++ t)).drop w'.length = u' ++ t := by
        simp [List.drop_left]
      have hsome : (matchFrom ts' ((w' ++ (u' ++ t)).drop w'.length)).isSome := by
        rw [hdrop]
        exact ih (u' ++ t) ⟨t, rfl⟩
      have := downTry_complete (fun l => matchFrom ts' l) (w' ++ (u' ++ t))
        (wsRunLen (w' ++ (u' ++ t))) ⟨w'.length, hj, hsome⟩
      cases hd : downTry (fun l => matchFrom ts' l) (w' ++ (u' ++ t))
          (wsRunLen (w' ++ (u' ++ t))) with
      | none => rw [hd] at this; simp at this
      | some m => simp

/-- The leftmost search fails exactly when no offset matches. -/
theorem regexExecAux_none_iff (ts : List Tok) (cs : List Char) :
    regexExecAux ts cs = none ↔ ∀ i, matchFrom ts (cs.drop i) = none := by
  induction cs with
  | nil =>
    rw [regexExecAux]
    cases hm : matchFrom ts [] with
    | none => simp [hm]
    | some n => simp [hm]
  | cons c cs' ih =>
    rw [regexExecAux]
    cases hm : matchFrom ts (c :: cs') with
    | some n =>
      simp only []
      constructor
      · intro h; cases h
      · intro h
        have := h 0
        simp [hm] at this
    | none =>
      cases he : regexExecAux ts cs' with
      | some p =>
        simp only [he, Option.map_some]
        constructor
        · intro h; cases h
        · intro h
          have h1 := ih.mpr
          have : ¬ (regexExecAux ts cs' = none) := by simp [he]
          exact absurd (h1 (fun i => by simpa using h (i + 1))) this
      | none =>
        simp only [he, Option.map_none]
        constructor
        · intro _ i
          cases i with
          | zero => simpa using hm
          | succ i => simpa using (ih.mp he) i
        · intro _; rfl

/-- What a successful leftmost search returns: a match at the reported
index, and failure at every earlier index. -/
theorem regexExecAux_some (ts : List Tok) :
    ∀ cs i n, regexExecAux ts cs = some (i, n) →
      matchFrom ts (cs.drop i) = some n ∧
      ∀ j, j < i → matchFrom ts (cs.drop j) = none := by
  intro cs
  induction cs with
  | nil =>
    intro i n h
    rw [regexExecAux] at h
    cases hm : matchFrom ts [] with
    | none => rw [hm] at h; cases h
    | some n₀ =>
      rw [hm] at h
      cases h
      exact ⟨by simpa using hm, by intro j hj; omega⟩
  | cons c cs' ih =>
    intro i n h
    rw [regexExecAux] at h
    cases hm : matchFrom ts (c :: cs') with
    | some n₀ =>
      rw [hm] at h
      cases h
      exact ⟨by simpa using hm, by intro j hj; omega⟩
    | none =>
      rw [hm] at h
      cases he : regexExecAux ts cs' with
      | none => rw [he] at h; cases h
      | some p =>
        rw [he] at h
        cases h
        obtain ⟨h1, h2⟩ := ih p.1 p.2 he
        constructor
        · simpa using h1
        · intro j hj
          cases j with
          | zero => simpa using hm
          | succ j => simpa using h2 j (by omega)

/-! ## The compiled pattern, related to the spec-side tokenization. -/

@[simp] theorem parsePattern_wsplus (X : List Char) :
    parsePattern ('\\' :: 's' :: '+' :: X) = .wsPlus :: parsePattern X := rfl

theorem parsePattern_cons_ne (c : Char) (X : List Char) (h : c ≠ '\\') :
    parsePattern (c :: X) = .lit c :: parsePattern X := by
  rw [parsePattern.eq_def]
  split <;> simp_all

theorem parsePattern_bs_ne (c : Char) (X : List Char) (h : c ≠ 's') :
    parsePattern ('\\' :: c :: X) = .lit c :: parsePattern X := by
  rw [parsePattern.eq_def]
  split
  all_goals try simp_all
  all_goals
    (rename_i hg heq
     rcases heq with ⟨h1, h2⟩
     subst h2
     exact absurd rfl (hg _ _ h1.symm))

theorem special_not_ws (c : Char) (h : isSpecialChar c = true) : isJsWs c = false := by
  simp only [isSpecialChar, Bool.or_eq_true, beq_iff_eq, or_assoc] at h
  rcases h with rfl | rfl | rfl | rfl | rfl | rfl | rfl | rfl | rfl | rfl | rfl | rfl |
    rfl | rfl | rfl | rfl | rfl | rfl <;> rfl

theorem special_ne_s (c : Char) (h : isSpecialChar c = true) : c ≠ 's' := by
  simp only [isSpecialChar, Bool.or_eq_true, beq_iff_eq, or_assoc] at h
  rcases h with rfl | rfl | rfl | rfl | rfl | rfl | rfl | rfl | rfl | rfl | rfl | rfl |
    rfl | rfl | rfl | rfl | rfl | rfl <;> decide

theorem ws_not_special (c : Char) (h : isJsWs c = true) : isSpecialChar c = false := by
  cases hsp : isSpecialChar c with
  | false => rfl
  | true => rw [special_not_ws c hsp] at h; cases h

theorem wsCollapseAux_cons (b : Bool) (c : Char) (r : List Char) :
    wsCollapseAux b (c :: r) =
      if isJsWs c then
        if b then wsCollapseAux true r
        else '\\' :: 's' :: '+' :: wsCollapseAux true r
      else c :: wsCollapseAux false r := by
  cases b <;> rfl

theorem snippetToksAux_cons (b : Bool) (c : Char) (r : List Char) :
    snippetToksAux b (c :: r) =
      if isJsWs c then
        if b then snippetToksAux true r
        else .wsPlus :: snippetToksAux true r
      else .lit c :: snippetToksAux false r := by
  cases b <;> rfl

theorem escapePass_cons (c : Char) (rest : List Char) :
    escapePass (c :: rest) = escChar c ++ escapePass rest := rfl

/-- The compiled token pattern of a snippet: what `getLineNumber` actually
searches with. -/
def compiledToks (s : String) : List Tok :=
  parsePattern (convertToRegexPattern s).data

/-- For a snippet containing no backslash, the compiled pattern reads back
as exactly the spec-side tokenization: every escaped special character is a
literal anchor and every whitespace run is one wildcard. -/
theorem parse_compiled_eq_snippetToks (cs : List Char) (h : ∀ c ∈ cs, c ≠ '\\') :
    ∀ b, parsePattern (wsCollapseAux b (escapePass cs)) = snippetToksAux b cs := by
  induction cs with
  | nil => intro b; rfl
  | cons c rest ih =>
    intro b
    have hc : c ≠ '\\' := h c (by simp)
    have hrest : ∀ x ∈ rest, x ≠ '\\' := fun x hx => h x (by simp [hx])
    rw [escapePass_cons]
    by_cases hw : isJsWs c
    · have hns : isSpecialChar c = false := ws_not_special c hw
      have he : escChar c = [c] := by simp [escChar, hns]
      rw [he, List.singleton_append, wsCollapseAux_cons, snippetToksAux_cons]
      simp only [hw, if_true]
      cases b with
      | true => simpa using ih hrest true
      | false =>
        simp only [Bool.false_eq_true, if_false]
        rw [parsePattern_wsplus, ih hrest true]
    · by_cases hs : isSpecialChar c
      · have hcs : c ≠ 's' := special_ne_s c hs
        have he : escChar c = ['\\', c] := by simp [escChar, hs]
        rw [he, snippetToksAux_cons]
        simp only [List.cons_append, List.nil_append, hw, Bool.false_eq_true, if_false]
        rw [wsCollapseAux_cons]
        simp only [show isJsWs '\\' = false from rfl, Bool.false_eq_true, if_false]
        rw [wsCollapseAux_cons]
        simp only [hw, Bool.false_eq_true, if_false]
        rw [parsePattern_bs_ne c _ hcs, ih hrest false]
      · have he : escChar c = [c] := by simp [escChar, hs]
        rw [he, List.singleton_append, wsCollapseAux_cons, snippetToksAux_cons]
        simp only [hw, Bool.false_eq_true, if_false]
        rw [parsePattern_cons_ne c _ hc, ih hrest false]

/-- `dropWhile` never lengthens a list. -/
theorem length_dropWhile_le' (p : Char → Bool) (l : List Char) :
    (l.dropWhile p).length ≤ l.length := by
  induction l with
  | nil => simp
  | cons c cs ih =>
    rw [List.dropWhile_cons]
    by_cases h : p c <;> simp [h] <;> omega

/-- In the inside-a-run state, the tokenizer just skips the rest of the run. -/
theorem snippetToksAux_true_eq (cs : List Char) :
    snippetToksAux true cs = snippetToks (cs.dropWhile isJsWs) := by
  induction cs with
  | nil => rfl
  | cons c rest ih =>
    rw [snippetToksAux_cons, List.dropWhile_cons]
    by_cases hw : isJsWs c
    · simp only [hw, if_true]
      exact ih
    · simp only [hw, Bool.false_eq_true, if_false]
      rw [snippetToks, snippetToksAux_cons]
      simp [hw]

/-- Every snippet is accepted by its own tokenization: the wildcard accepts
the very whitespace run it replaced. -/
theorem tokMatches_self (cs : List Char) : TokMatches (snippetToks cs) cs := by
  have main : ∀ N cs, List.length cs ≤ N → TokMatches (snippetToks cs) cs := by
    intro N
    induction N with
    | zero =>
      intro cs h
      have : cs = [] := by cases cs <;> simp_all
      subst this
      exact TokMatches.nil
    | succ N ihN =>
      intro cs hlen
      cases cs with
      | nil => exact TokMatches.nil
      | cons c rest =>
        by_cases hw : isJsWs c
        · rw [snippetToks, snippetToksAux_cons]
          simp only [hw, if_true]
          rw [snippetToksAux_true_eq]
          have hsplit : c :: rest =
              (c :: rest.takeWhile isJsWs) ++ rest.dropWhile isJsWs := by
            simp [List.takeWhile_append_dropWhile]
          rw [hsplit]
          refine TokMatches.plus (by simp) ?_ ?_
          · intro x hx
            rcases List.mem_cons.mp hx with hx | hx
            · subst hx; exact hw
            · exact List.mem_takeWhile_imp hx
          · refine ihN (rest.dropWhile isJsWs) ?_
            have := length_dropWhile_le' isJsWs rest
            simp only [List.length_cons] at hlen
            omega
        · rw [snippetToks, snippetToksAux_cons]
          simp only [hw, if_false]
          refine TokMatches.lit (ihN rest ?_)
          simp only [List.length_cons] at hlen
          omega
  exact main cs.length cs (Nat.le_refl _)

/-! ## The compiled pattern of an all-whitespace snippet (for C10). -/

theorem escapePass_allws (cs : List Char) (h : ∀ c ∈ cs, isJsWs c = true) :
    escapePass cs = cs := by
  induction cs with
  | nil => rfl
  | cons c rest ih =>
    rw [escapePass_cons]
    have hns : isSpecialChar c = false := ws_not_special c (h c (by simp))
    simp only [escChar, hns, Bool.false_eq_true, if_false, List.singleton_append]
    rw [ih (fun x hx => h x (by simp [hx]))]

theorem wsCollapseAux_true_allws (cs : List Char) (h : ∀ c ∈ cs, isJsWs c = true) :
    wsCollapseAux true cs = [] := by
  induction cs with
  | nil => rfl
  | cons c rest ih =>
    rw [wsCollapseAux_cons]
    simp only [h c (by simp), if_true]
    exact ih (fun x hx => h x (by simp [hx]))

theorem compiledToks_allws (s : String) (hne : s.data ≠ [])
    (h : ∀ c ∈ s.data, isJsWs c = true) : compiledToks s = [.wsPlus] := by
  rw [compiledToks]
  have hconv : (convertToRegexPattern s).data = wsCollapseAux false (escapePass s.data) := rfl
  rw [hconv, escapePass_allws s.data h]
  cases hd : s.data with
  | nil => exact absurd hd hne
  | cons c rest =>
    rw [wsCollapseAux_cons]
    have hc : isJsWs c = true := by
      apply h; rw [hd]; simp
    simp only [hc, if_true, Bool.false_eq_true, if_false]
    rw [wsCollapseAux_true_allws rest (fun x hx => by
      apply h; rw [hd]; simp [hx])]
    rfl

theorem downTry_const0 (cs : List Char) (k : Nat) :
    downTry (fun _ => (some 0 : Option Nat)) cs k = some k := by
  induction k with
  | zero => rfl
  | succ k _ => rw [downTry]

theorem matchFrom_wsPlus_cons (c : Char) (cs : List Char) :
    matchFrom [.wsPlus] (c :: cs) =
      if isJsWs c then some (wsRunLen cs + 1) else none := by
  rw [matchFrom_plus_cons]
  by_cases hw : isJsWs c
  · simp only [hw, if_true, matchFrom_nil_toks, downTry_const0]
    simp
  · simp [hw]

/-- The index of the first whitespace character of `cs` (the length of `cs`
when there is none). -/
def firstWsIdx (cs : List Char) : Nat :=
  (cs.takeWhile (fun c => !(isJsWs c))).length

/-- The leftmost match of the sole-wildcard pattern `\s+` is the first
maximal whitespace run of the text. -/
theorem execAux_wsPlus (cs : List Char) (hex : ∃ c ∈ cs, isJsWs c = true) :
    regexExecAux [.wsPlus] cs =
      some (firstWsIdx cs, wsRunLen (cs.drop (firstWsIdx cs))) := by
  induction cs with
  | nil => simp at hex
  | cons c cs' ih =>
    by_cases hw : isJsWs c
    · rw [regexExecAux]
      rw [matchFrom_wsPlus_cons]
      simp only [hw, if_true]
      have h0 : firstWsIdx (c :: cs') = 0 := by
        rw [firstWsIdx, List.takeWhile_cons]
        simp [hw]
      rw [h0]
      simp only [List.drop_zero]
      simp [wsRunLen, List.takeWhile_cons, hw]
    · rw [regexExecAux]
      rw [matchFrom_wsPlus_cons]
      simp only [hw, if_false]
      have hex' : ∃ x ∈ cs', isJsWs x = true := by
        rcases hex with ⟨x, hx, hxw⟩
        rcases List.mem_cons.mp hx with h | h
        · subst h; rw [hxw] at hw; simp at hw
        · exact ⟨x, h, hxw⟩
      rw [ih hex']
      have hstep : firstWsIdx (c :: cs') = firstWsIdx cs' + 1 := by
        rw [firstWsIdx, firstWsIdx, List.takeWhile_cons]
        simp [hw]
      rw [hstep]
      simp [Option.map_some]

/-! ## The imperative parser agrees with the declarative extractor. -/

/-- The inner line loop of the parser, as a fold, appends exactly the
records of the qualifying added lines. -/
theorem inner_foldl_eq (ref : JsonObj) (fp : List Char) (lines : List (List Char)) :
    ∀ changes, lines.foldl
      (fun changes line =>
        if isAddedMarked line then
          match kvExtract (line.drop 1) with
          | some kv => changes ++ [mkRecord ref fp kv.1 kv.2 (line.drop 1)]
          | none => changes
        else changes) changes
    = changes ++ lines.filterMap (addedRecord ref fp) := by
  induction lines with
  | nil => intro changes; simp
  | cons l ls ih =>
    intro changes
    rw [List.foldl_cons, List.filterMap_cons]
    by_cases ha : isAddedMarked l = true
    · simp only [ha, if_true]
      cases hk : kvExtract (l.drop 1) with
      | none =>
        simp only []
        rw [ih]
        simp only [List.drop_one] at hk
        simp [addedRecord, ha, hk]
      | some kv =>
        simp only []
        rw [ih]
        simp only [List.drop_one] at hk
        simp [addedRecord, ha, hk]
    · simp only [ha, Bool.false_eq_true, if_false]
      rw [ih]
      simp [addedRecord, ha]

/-- The parser's `continue` condition is the negation of `retainedPath`'s
retention condition. -/
theorem retained_cond (fp : List Char) :
    (!(jsonDotSuffix fp) || fp = enJson) = false ↔
      (jsonDotSuffix fp ∧ fp ≠ enJson) := by
  by_cases h1 : jsonDotSuffix fp = true <;> by_cases h2 : fp = enJson <;>
    simp [h1, h2]

/-- The source-derived parser computes exactly the spec-side extraction:
one record per qualifying added line of each retained section, in order. -/
theorem parse_eq_extractSpec (diff : String) (ref : JsonObj) :
    parseTranslationChangesFromDiff diff ref = extractSpec diff ref := by
  rw [parseTranslationChangesFromDiff, extractSpec]
  generalize (splitSections diff.data).filter (fun s => !s.isEmpty) = secs
  have main : ∀ (secs : List (List Char)) (init : List TranslationChange),
      secs.foldl
        (fun changes sec =>
          match bPathMatch (sec.takeWhile (fun c => c != '\n')) with
          | none => changes
          | some fp =>
            if !(jsonDotSuffix fp) || fp = enJson then changes
            else
              (splitOnChar '\n' sec).foldl
                (fun changes line =>
                  if isAddedMarked line then
                    match kvExtract (line.drop 1) with
                    | some kv =>
                      changes ++ [mkRecord ref fp kv.1 kv.2 (line.drop 1)]
                    | none => changes
                  else changes)
                changes) init
      = init ++ secs.flatMap
          (fun sec =>
            match retainedPath sec with
            | none => []
            | some fp => (splitOnChar '\n' sec).filterMap (addedRecord ref fp)) := by
    intro secs
    induction secs with
    | nil => intro init; simp
    | cons sec ss ih =>
      intro init
      rw [List.foldl_cons, List.flatMap_cons]
      rw [retainedPath]
      cases hb : bPathMatch (sec.takeWhile (fun c => c != '\n')) with
      | none =>
        rw [ih]
        simp
      | some fp =>
        simp only []
        by_cases hcond : (!(jsonDotSuffix fp) || fp = enJson) = true
        · have hnot : ¬ (jsonDotSuffix fp ∧ fp ≠ enJson) := by
            intro hc
            rw [(retained_cond fp).mpr hc] at hcond
            cases hcond
          rw [if_pos hcond, if_neg hnot, ih]
          simp
        · have hc : jsonDotSuffix fp ∧ fp ≠ enJson :=
            (retained_cond fp).mp (by
              cases h : (!(jsonDotSuffix fp) || fp = enJson) with
              | false => rfl
              | true => exact absurd h hcond)
          rw [if_neg hcond, if_pos hc, inner_foldl_eq, ih]
          simp
  exact main secs []

/-- A key extracted by the key/value pattern is never empty. -/
theorem kvExtract_key_ne (content : List Char) (kv : List Char × List Char)
    (h : kvExtract content = some kv) : kv.1 ≠ [] := by
  rw [kvExtract.eq_def] at h
  split at h
  · rename_i t1 heq
    simp only [] at h
    by_cases hk : (t1.takeWhile (fun c => c != '"')).isEmpty = true
    · rw [if_pos hk] at h; cases h
    · rw [if_neg hk] at h
      split at h
      · rename_i t3 heq2
        split at h
        · rename_i t5 heq3
          cases hb : beforeLastQuote (t5.takeWhile (fun c => !(isLineTerm c))) with
          | none => rw [hb] at h; cases h
          | some v =>
            rw [hb] at h
            cases h
            simpa [List.isEmpty_iff] using hk
        · cases h
      · cases h
  · cases h

/-- Decomposition of a record of the declarative extractor: it is an
`mkRecord` for a retained path and a non-empty key. -/
theorem extractSpec_mem (d : String) (ref : JsonObj) (r : TranslationChange)
    (hr : r ∈ extractSpec d ref) :
    ∃ fp k v content, jsonDotSuffix fp = true ∧ fp ≠ enJson ∧ k ≠ [] ∧
      r = mkRecord ref fp k v content := by
  rw [extractSpec, List.mem_flatMap] at hr
  obtain ⟨sec, _, hr⟩ := hr
  cases hret : retainedPath sec with
  | none => rw [hret] at hr; simp at hr
  | some fp =>
    rw [hret] at hr
    rw [List.mem_filterMap] at hr
    obtain ⟨line, _, hrec⟩ := hr
    rw [addedRecord] at hrec
    by_cases ha : isAddedMarked line = true
    · rw [if_pos ha] at hrec
      cases hk : kvExtract (line.drop 1) with
      | none => rw [hk] at hrec; cases hrec
      | some kv =>
        rw [hk] at hrec
        have hrec2 : mkRecord ref fp kv.1 kv.2 (line.drop 1) = r := by
          simpa using hrec
        have hcond : jsonDotSuffix fp = true ∧ fp ≠ enJson := by
          rw [retainedPath] at hret
          cases hb : bPathMatch (sec.takeWhile (fun c => c != '\n')) with
          | none => rw [hb] at hret; cases hret
          | some fp0 =>
            rw [hb] at hret
            simp only [] at hret
            by_cases hc : jsonDotSuffix fp0 ∧ fp0 ≠ enJson
            · rw [if_pos hc] at hret
              cases hret
              exact hc
            · rw [if_neg hc] at hret; cases hret
        exact ⟨fp, kv.1, kv.2, line.drop 1, hcond.1, hcond.2,
          kvExtract_key_ne _ _ hk, hrec2.symm⟩
    · simp only [ha, Bool.false_eq_true, if_false] at hrec
      cases hrec

/-! ## The imperative filter agrees with the declarative filter. -/

theorem buildSpans_eq (cs : List Char) (ms : List (Nat × List Char)) :
    buildSpans cs ms =
      (((spansOf cs ms).filter (fun sp => !(ignoredTest sp.1))).map
        (fun sp => sp.2)).flatten := by
  induction ms with
  | nil => rfl
  | cons m rest ih =>
    obtain ⟨idx, path⟩ := m
    rw [buildSpans.eq_def, spansOf.eq_def]
    simp only []
    by_cases hi : ignoredTest path = true
    · simp [List.filter_cons, hi, ih]
    · simp [List.filter_cons, hi, ih]

/-- The filter computes exactly the declarative preamble-plus-kept-spans
characterization on every string input. -/
theorem filter_eq_spec (d : String) :
    filterDiffByIgnoredFiles (.str d) = .str (filterSpecStr d) := by
  rw [filterDiffByIgnoredFiles, filterSpecStr]
  by_cases hd : d = ""
  · subst hd
    rfl
  · rw [if_neg hd]
    cases hm : headerScan d.data with
    | nil => rfl
    | cons m0 ms =>
      obtain ⟨i0, p0⟩ := m0
      simp only []
      rw [buildSpans_eq]
      by_cases h0 : 0 < i0
      · rw [if_pos h0]
      · rw [if_neg h0]
        have : i0 = 0 := by omega
        subst this
        simp

/-! ## Recovery of quoted and unquoted destination paths (for C7). -/

theorem takeWhile_app_all (p : Char → Bool) (l r : List Char)
    (h : ∀ x ∈ l, p x = true) :
    (l ++ r).takeWhile p = l ++ r.takeWhile p := by
  induction l with
  | nil => simp
  | cons c cs ih =>
    rw [List.cons_append, List.takeWhile_cons]
    simp only [h c (by simp), if_true]
    rw [ih (fun x hx => h x (by simp [hx])), List.cons_append]

theorem takeWhile_all_self (p : Char → Bool) (l : List Char)
    (h : ∀ x ∈ l, p x = true) : l.takeWhile p = l := by
  simpa using takeWhile_app_all p l [] h

/-- An attempt of the destination-path regex at a non-whitespace character
fails immediately (`\s+` needs at least one whitespace character). -/
theorem bTryAt_not_ws (c : Char) (rest : List Char) (h : isJsWs c = false) :
    bTryAt (c :: rest) = none := by
  rw [bTryAt]
  simp [List.takeWhile_cons, h]

theorem bPathMatch_cons_eq (c : Char) (rest : List Char) :
    bPathMatch (c :: rest) =
      match bTryAt (c :: rest) with
      | some t => some t
      | none => bPathMatch rest := rfl

/-- The leftmost search skips a non-whitespace character. -/
theorem bPathMatch_skip (c : Char) (rest : List Char) (h : isJsWs c = false) :
    bPathMatch (c :: rest) = bPathMatch rest := by
  rw [bPathMatch_cons_eq, bTryAt_not_ws c rest h]

/-- The leftmost search skips any run of non-whitespace characters. -/
theorem bPathMatch_skip_all (l rest : List Char) (h : ∀ c ∈ l, isJsWs c = false) :
    bPathMatch (l ++ rest) = bPathMatch rest := by
  induction l with
  | nil => simp
  | cons c cs ih =>
    rw [List.cons_append, bPathMatch_skip c _ (h c (by simp))]
    exact ih (fun x hx => h x (by simp [hx]))

/-- The capture class accepts every character of a quote-free
whitespace-free path. -/
theorem pathClass_all (P : List Char)
    (hP : ∀ c ∈ P, isJsWs c = false ∧ (c == '"') = false) :
    ∀ x ∈ P, (!(isJsWs x) && x != '"') = true := by
  intro x hx
  obtain ⟨h1, h2⟩ := hP x hx
  simp [h1, bne, h2]

/-- A successful attempt of the destination-path regex: one space, then
`b/` (no quote), the path (quote-free, whitespace-free, ending in `.json`
with a non-empty stem), then nothing or a closing quote. -/
theorem bTryAt_space_b (P after : List Char)
    (hP : ∀ c ∈ P, isJsWs c = false ∧ (c == '"') = false)
    (hsuf : ".json".toList.isSuffixOf P = true) (hlen : 6 ≤ P.length)
    (hafter : after = [] ∨ after = ['"']) :
    bTryAt (' ' :: 'b' :: '/' :: (P ++ after)) = some P := by
  have hcls := pathClass_all P hP
  have htkP : P.takeWhile (fun c => !(isJsWs c) && c != '"') = P :=
    takeWhile_all_self _ P hcls
  have hsuf' : ['.', 'j', 's', 'o', 'n'] <:+ P := by
    have := List.isSuffixOf_iff_suffix.mp hsuf
    simpa using this
  rcases hafter with rfl | rfl
  · rw [List.append_nil, bTryAt]
    have hrun : (' ' :: 'b' :: '/' :: P).takeWhile isJsWs = [' '] := by
      simp [List.takeWhile_cons, show isJsWs ' ' = true from rfl,
        show isJsWs 'b' = false from rfl]
    simp [hrun, htkP, hsuf', hlen, hsuf]
  · rw [bTryAt]
    have hrun : (' ' :: 'b' :: '/' :: (P ++ ['"'])).takeWhile isJsWs = [' '] := by
      simp [List.takeWhile_cons, show isJsWs ' ' = true from rfl,
        show isJsWs 'b' = false from rfl]
    have htake : (P ++ ['"']).takeWhile (fun c => !(isJsWs c) && c != '"') = P := by
      rw [takeWhile_app_all _ P _ hcls]
      simp [List.takeWhile_cons]
    have hdrop : (P ++ ['"']).drop P.length = ['"'] := List.drop_left P ['"']
    simp [hrun, htake, hsuf', hlen, hsuf, hdrop]

/-- A failed attempt at the space before `a/P`: after the whitespace and an
optional quote the regex requires `b`, but finds `a`. -/
theorem bTryAt_space_a (x : List Char) :
    bTryAt (' ' :: 'a' :: '/' :: x) = none := by
  rw [bTryAt]
  have hrun : (' ' :: 'a' :: '/' :: x).takeWhile isJsWs = [' '] := by
    simp [List.takeWhile_cons, show isJsWs ' ' = true from rfl, show isJsWs 'a' = false from rfl, show isJsWs 'b' = false from rfl, show isJsWs '/' = false from rfl, show isJsWs '\"' = false from rfl]
  simp only [hrun]
  simp

theorem bTryAt_space_quote_a (x : List Char) :
    bTryAt (' ' :: '"' :: 'a' :: '/' :: x) = none := by
  rw [bTryAt]
  have hrun : (' ' :: '"' :: 'a' :: '/' :: x).takeWhile isJsWs = [' '] := by
    simp [List.takeWhile_cons, show isJsWs ' ' = true from rfl, show isJsWs 'a' = false from rfl, show isJsWs 'b' = false from rfl, show isJsWs '/' = false from rfl, show isJsWs '"' = false from rfl]
  simp only [hrun]
  simp

/-- The closing-quote variant of a successful attempt: ` "b/P"`. -/
theorem bTryAt_space_quote_b (P : List Char)
    (hP : ∀ c ∈ P, isJsWs c = false ∧ (c == '"') = false)
    (hsuf : ".json".toList.isSuffixOf P = true) (hlen : 6 ≤ P.length) :
    bTryAt (' ' :: '"' :: 'b' :: '/' :: (P ++ ['"'])) = some P := by
  have hcls := pathClass_all P hP
  have hsuf' : ['.', 'j', 's', 'o', 'n'] <:+ P := by
    have := List.isSuffixOf_iff_suffix.mp hsuf
    simpa using this
  rw [bTryAt]
  have hrun : (' ' :: '"' :: 'b' :: '/' :: (P ++ ['"'])).takeWhile isJsWs = [' '] := by
    simp [List.takeWhile_cons, show isJsWs ' ' = true from rfl,
      show isJsWs '"' = false from rfl]
  have htake : (P ++ ['"']).takeWhile (fun c => !(isJsWs c) && c != '"') = P := by
    rw [takeWhile_app_all _ P _ hcls]
    simp [List.takeWhile_cons]
  have hdrop : (P ++ ['"']).drop P.length = ['"'] := List.drop_left P ['"']
  simp [hrun, htake, hsuf', hlen, hsuf, hdrop]

/-- On an unquoted section first line ` a/P b/P` the destination-path regex
recovers `P`. -/
theorem bPathMatch_unquoted (P : List Char)
    (hP : ∀ c ∈ P, isJsWs c = false ∧ (c == '"') = false)
    (hsuf : ".json".toList.isSuffixOf P = true) (hlen : 6 ≤ P.length) :
    bPathMatch (' ' :: 'a' :: '/' :: (P ++ (' ' :: 'b' :: '/' :: P))) = some P := by
  rw [bPathMatch_cons_eq, bTryAt_space_a]
  rw [bPathMatch_skip 'a' _ rfl, bPathMatch_skip '/' _ rfl]
  rw [bPathMatch_skip_all P _ (fun c hc => (hP c hc).1)]
  have := bTryAt_space_b P [] hP hsuf hlen (Or.inl rfl)
  rw [List.append_nil] at this
  rw [bPathMatch_cons_eq, this]

/-- On a quoted section first line ` "a/P" "b/P"` the destination-path regex
still recovers the unquoted `P`. -/
theorem bPathMatch_quoted (P : List Char)
    (hP : ∀ c ∈ P, isJsWs c = false ∧ (c == '"') = false)
    (hsuf : ".json".toList.isSuffixOf P = true) (hlen : 6 ≤ P.length) :
    bPathMatch (' ' :: '"' :: 'a' :: '/' ::
      (P ++ ('"' :: ' ' :: '"' :: 'b' :: '/' :: (P ++ ['"'])))) = some P := by
  rw [bPathMatch_cons_eq, bTryAt_space_quote_a]
  rw [bPathMatch_skip '"' _ rfl, bPathMatch_skip 'a' _ rfl,
    bPathMatch_skip '/' _ rfl]
  rw [bPathMatch_skip_all P _ (fun c hc => (hP c hc).1)]
  rw [bPathMatch_skip '"' _ rfl]
  rw [bPathMatch_cons_eq, bTryAt_space_quote_b P hP hsuf hlen]

/-- `getLineNumber` written through `compiledToks`, for the proofs below. -/
theorem getLineNumber_eq (t s : String) :
    getLineNumber t s =
      if t = "" ∨ s = "" then -1
      else
        match regexExecAux (compiledToks s) t.data with
        | none => -1
        | some p =>
          ((countNl (t.data.take p.1) + 1 +
            (countNl ((t.data.drop p.1).take p.2) + 1) - 1 : Nat) : Int) := by
  unfold getLineNumber
  rw [show parsePattern (convertToRegexPattern s).data = compiledToks s from rfl]
  split
  · rfl
  · cases hre : regexExecAux (compiledToks s) t.data with
    | none => simp [hre]
    | some p => cases p with | mk a b => simp [hre]

/-- A natural number cast to `Int` is never `-1`. -/
theorem natCast_ne_negOne (n : Nat) : ((n : Nat) : Int) ≠ -1 := by
  intro h
  have h0 : (0 : Int) ≤ (n : Int) := Int.natCast_nonneg n
  rw [h] at h0
  norm_num at h0

theorem scanPat_bs_pair (c : Char) (l : List Char) :
    scanPat false ('\\' :: c :: l) = scanPat false l := rfl

theorem scanPat_false_cons_ne (c : Char) (l : List Char) (h1 : c ≠ '\\')
    (h2 : c ≠ '[') : scanPat false (c :: l) = scanPat false l := by
  rw [scanPat.eq_def]
  split
  all_goals simp_all

/-- The compiled pattern of a backslash-free snippet is accepted by the
`RegExp` constructor: every backslash the pattern contains was introduced
by the escape pass or the whitespace collapse, so it is always followed by
a character, and no unescaped opening bracket ever appears. -/
theorem scanPat_compiled (cs : List Char) (h : ∀ c ∈ cs, c ≠ '\\') :
    ∀ b, scanPat false (wsCollapseAux b (escapePass cs)) = true := by
  induction cs with
  | nil => intro b; rfl
  | cons c rest ih =>
    intro b
    have hc : c ≠ '\\' := h c (by simp)
    have hrest : ∀ x ∈ rest, x ≠ '\\' := fun x hx => h x (by simp [hx])
    rw [escapePass_cons]
    by_cases hw : isJsWs c
    · have hns : isSpecialChar c = false := ws_not_special c hw
      have he : escChar c = [c] := by simp [escChar, hns]
      rw [he, List.singleton_append, wsCollapseAux_cons]
      simp only [hw, if_true]
      cases b with
      | true => exact ih hrest true
      | false =>
        simp only [Bool.false_eq_true, if_false]
        rw [scanPat_bs_pair]
        rw [scanPat_false_cons_ne '+' _ (by decide) (by decide)]
        exact ih hrest true
    · by_cases hsp : isSpecialChar c
      · have he : escChar c = ['\\', c] := by simp [escChar, hsp]
        rw [he]
        simp only [List.cons_append, List.nil_append]
        rw [wsCollapseAux_cons]
        simp only [show isJsWs '\\' = false from rfl, Bool.false_eq_true, if_false]
        rw [wsCollapseAux_cons]
        simp only [hw, Bool.false_eq_true, if_false]
        rw [scanPat_bs_pair]
        exact ih hrest false
      · have he : escChar c = [c] := by simp [escChar, hsp]
        rw [he, List.singleton_append, wsCollapseAux_cons]
        simp only [hw, Bool.false_eq_true, if_false]
        rw [scanPat_false_cons_ne c _ hc (fun hq => hsp (by rw [hq]; decide))]
        exact ih hrest false

/-- For a backslash-free snippet, `new RegExp(convertToRegexPattern(s))`
does not throw. -/
theorem regexSyntaxOk_compiled (s : String) (hb : ∀ c ∈ s.data, c ≠ '\\') :
    regexSyntaxOk (convertToRegexPattern s) = true :=
  scanPat_compiled s.data hb false

/-- On backslash-free snippets the exception-aware `getLineNumberE` never
throws and agrees with `getLineNumber`. -/
theorem getLineNumberE_ok (t s : String) (hb : ∀ c ∈ s.data, c ≠ '\\') :
    getLineNumberE t s = Except.ok (getLineNumber t s) := by
  unfold getLineNumberE
  by_cases hts : t = "" ∨ s = ""
  · rw [if_pos hts, getLineNumber_eq, if_pos hts]
  · rw [if_neg hts, if_pos (regexSyntaxOk_compiled s hb)]

/-! ## The claims. -/

/-- C1: `parseTranslationChangesFromDiff(d, ref)` returns exactly one
Translation Change Record per qualifying added line of each retained
section — a line beginning with the single `+` marker, not `+++`, whose
content after the marker matches the key/value shape — in section order and
within-section line order; removed and non-matching lines produce no
record, and each record's `line` is the added line's content with only the
leading `+` removed (that is exactly what `extractSpec`'s `filterMap` over
`addedRecord` builds, and `addedRecord` sets `line` to `line.drop 1`). -/
theorem claim_C1 (d : String) (ref : JsonObj) :
    parseTranslationChangesFromDiff d ref = extractSpec d ref :=
  parse_eq_extractSpec d ref

set_option maxRecDepth 1000000 in
/-- C2 (code evaluation at the failing inputs): the source's `ignoredRegex`
covers only the three exact lockfile/manifest names and `node_modules/`
prefixes, so `Podfile.lock`, `.png` and nitrogen-generated paths are NOT
ignored — `filterDiffByIgnoredFiles` returns diffs made of such sections
unchanged, contradicting the claimed default policy and the repository's
own tests (`should filter out png files`, `should filter out Podfile.lock`,
`should filter out nitrogen generated files`). -/
theorem claim_C2 :
    ignoredTest ("ios/Podfile.lock").data = false ∧
    ignoredTest ("assets/icon.png").data = false ∧
    ignoredTest ("packages/nitrogen/generated/File.ts").data = false ∧
    filterDiffByIgnoredFiles (.str "diff --git a/ios/Podfile.lock b/ios/Podfile.lock\n--- a/ios/Podfile.lock\n+++ b/ios/Podfile.lock\n@@ -1 +1 @@\n-old\n+new")
      = .str "diff --git a/ios/Podfile.lock b/ios/Podfile.lock\n--- a/ios/Podfile.lock\n+++ b/ios/Podfile.lock\n@@ -1 +1 @@\n-old\n+new" ∧
    filterDiffByIgnoredFiles (.str "diff --git a/src/App.tsx b/src/App.tsx\n--- a/src/App.tsx\n+++ b/src/App.tsx\n@@ -1 +1 @@\n-old\n+new\ndiff --git a/assets/icon.png b/assets/icon.png\nBinary files differ")
      = .str "diff --git a/src/App.tsx b/src/App.tsx\n--- a/src/App.tsx\n+++ b/src/App.tsx\n@@ -1 +1 @@\n-old\n+new\ndiff --git a/assets/icon.png b/assets/icon.png\nBinary files differ" ∧
    filterDiffByIgnoredFiles (.str "diff --git a/packages/nitrogen/generated/File.ts b/packages/nitrogen/generated/File.ts\n--- a/packages/nitrogen/generated/File.ts\n+++ b/packages/nitrogen/generated/File.ts\n@@ -1 +1 @@\n-old\n+new")
      = .str "diff --git a/packages/nitrogen/generated/File.ts b/packages/nitrogen/generated/File.ts\n--- a/packages/nitrogen/generated/File.ts\n+++ b/packages/nitrogen/generated/File.ts\n@@ -1 +1 @@\n-old\n+new" := by
  decide

/-- C3 (amended): a record's `englishValue` equals the sentinel whenever
the nested-key lookup yields no value OR the empty string (JavaScript's
falsy `||` coalescing), and equals the resolved reference string whenever
the lookup yields a non-empty string. -/
theorem claim_C3 (d : String) (ref : JsonObj) (r : TranslationChange)
    (hr : r ∈ parseTranslationChangesFromDiff d ref) :
    ((getNestedValue (some ref) r.key = none ∨
        getNestedValue (some ref) r.key = some "") →
      r.englishValue = sentinel) ∧
    (∀ v, getNestedValue (some ref) r.key = some v → v ≠ "" →
      r.englishValue = v) := by
  rw [parse_eq_extractSpec] at hr
  obtain ⟨fp, k, v0, content, -, -, -, rfl⟩ := extractSpec_mem d ref r hr
  constructor
  · intro h
    rcases h with h | h <;>
      (simp only [mkRecord] at h ⊢; simp [jsOrSentinel, h])
  · intro v hv hne
    simp only [mkRecord] at hv ⊢
    simp [jsOrSentinel, hv, hne]

set_option maxRecDepth 1000000 in
/-- Witness for C3: in the concrete `de.json` scenario the lookup yields
the non-empty string `"Starting point"`, which becomes the record's
`englishValue`. -/
theorem claim_C3_witness :
    ((⟨"de.json", "starting_point", "Startpunkt", "Starting point",
        "  \"starting_point\": \"Startpunkt\","⟩ :
      TranslationChange)).englishValue = "Starting point" :=
  (claim_C3 "diff --git a/de.json b/de.json\n--- a/de.json\n+++ b/de.json\n@@ -1,3 +1,3 @@\n-  \"starting_point\": \"Startpunkttt\",\n+  \"starting_point\": \"Startpunkt\","
      [("starting_point", .str "Starting point")] _ (by decide)).2
    "Starting point" (by decide) (by decide)

set_option maxRecDepth 1000000 in
/-- Counterexample to C3 as stated: with a reference mapping the key
resolves in (to the empty string), the extractor still substitutes the
sentinel, so the sentinel does NOT appear exactly when the key is absent. -/
theorem claim_C3_cex :
    parseTranslationChangesFromDiff
        "diff --git a/de.json b/de.json\n--- a/de.json\n+++ b/de.json\n+  \"a\": \"x\","
        [("a", .str "")] =
      [⟨"de.json", "a", "x", "(no English source found)", "  \"a\": \"x\","⟩] ∧
    getNestedValue (some [("a", .str "")]) "a" = some "" := by
  decide

/-- C6: `getNestedValue` returns `undefined` on an absent mapping, and on a
present mapping computes the spec's nested-key lookup — direct flat lookup
first (so a dotted key present as a flat key takes precedence), then
dot-separated descent failing as soon as a segment is missing or the value
is not traversable, strings verbatim; and a structured (object) value
resolves to its `JSON.stringify` serialization rather than `undefined`. -/
theorem claim_C6 :
    (∀ k, getNestedValue none k = none) ∧
    (∀ fields k, getNestedValue (some fields) k = lookupSpec fields k) ∧
    (∀ fields k fs, lookupField fields k = some (JsonVal.obj fs) →
      getNestedValue (some fields) k =
        some (String.mk (stringifyVal (JsonVal.obj fs)))) := by
  refine ⟨fun k => rfl, fun fields k => getNestedValue_eq_lookupSpec fields k, ?_⟩
  intro fields k fs h
  simp [getNestedValue, h, renderVal]

set_option maxRecDepth 100000 in
/-- Witness for C6: the pluralization group under `charger` resolves to its
serialization. -/
theorem claim_C6_witness :
    getNestedValue (some [("charger", JsonVal.obj [("zero", JsonVal.str "No charges")])])
        "charger" =
      some (String.mk (stringifyVal (JsonVal.obj [("zero", JsonVal.str "No charges")]))) :=
  claim_C6.2.2 _ "charger" _ rfl

/-- C8: every record of the extractor has a file path ending in `.json`,
a file path different from the source-language file `en.json`, and a
non-empty key. -/
theorem claim_C8 (d : String) (ref : JsonObj) (r : TranslationChange)
    (hr : r ∈ parseTranslationChangesFromDiff d ref) :
    jsonDotSuffix r.file.data = true ∧ r.file ≠ "en.json" ∧ r.key ≠ "" := by
  rw [parse_eq_extractSpec] at hr
  obtain ⟨fp, k, v, content, h1, h2, h3, rfl⟩ := extractSpec_mem d ref r hr
  refine ⟨by simpa [mkRecord] using h1, ?_, ?_⟩
  · intro he
    apply h2
    have hd : (String.mk fp).data = ("en.json" : String).data := by
      simp only [mkRecord] at he
      rw [he]
    simpa [enJson] using hd
  · intro he
    apply h3
    have hd : (String.mk k).data = ("" : String).data := by
      simp only [mkRecord] at he
      rw [he]
    simpa using hd

set_option maxRecDepth 1000000 in
/-- Witness for C8 at the concrete `de.json` scenario. -/
theorem claim_C8_witness :
    jsonDotSuffix ((⟨"de.json", "starting_point", "Startpunkt",
        "Starting point", "  \"starting_point\": \"Startpunkt\","⟩ :
      TranslationChange)).file.data = true ∧
    ((⟨"de.json", "starting_point", "Startpunkt", "Starting point",
        "  \"starting_point\": \"Startpunkt\","⟩ :
      TranslationChange)).file ≠ "en.json" ∧
    ((⟨"de.json", "starting_point", "Startpunkt", "Starting point",
        "  \"starting_point\": \"Startpunkt\","⟩ :
      TranslationChange)).key ≠ "" :=
  claim_C8 "diff --git a/de.json b/de.json\n--- a/de.json\n+++ b/de.json\n@@ -1,3 +1,3 @@\n-  \"starting_point\": \"Startpunkttt\",\n+  \"starting_point\": \"Startpunkt\","
    [("starting_point", .str "Starting point")] _ (by decide)

/-- C9: the filter returns each falsy input unchanged as the same falsy
value (`null` as `null`, `undefined` as `undefined`, `""` as `""`), and on
every string computes the declarative characterization `filterSpecStr`:
input unchanged when no header matches, otherwise the preamble before the
first header verbatim followed by the kept spans verbatim, in input order,
none duplicated or reordered. -/
theorem claim_C9 :
    filterDiffByIgnoredFiles .jsNull = .jsNull ∧
    filterDiffByIgnoredFiles .jsUndef = .jsUndef ∧
    filterDiffByIgnoredFiles (.str "") = .str "" ∧
    ∀ d, filterDiffByIgnoredFiles (.str d) = .str (filterSpecStr d) :=
  ⟨rfl, rfl, rfl, filter_eq_spec⟩

theorem matchesAt_def (ts : List Tok) (cs : List Char) (i : Nat) :
    MatchesAt ts cs i ↔ ∃ u, u <+: cs.drop i ∧ TokMatches ts u := Iff.rfl

/-- C4 (amended to snippets containing no backslash — on those the
compiled pattern is a valid regex, so the `RegExp` constructor of utils.js
line 67 cannot throw, and the engine's reading of the pattern is exact):
the call returns normally, and returns `-1` exactly when an argument is
empty (the JavaScript falsy guard; `null`/`undefined` behave as the empty
string) or the compiled pattern matches nowhere in `t`; otherwise it
reports, for the leftmost match — every earlier offset fails — the 1-based
line number of the match's last line: the newlines before the match start
plus the newlines inside the matched text plus one, i.e. `n + k - 1` for a
match spanning `k` lines starting at line `n`. -/
theorem claim_C4 (t s : String) (hb : ∀ c ∈ s.data, c ≠ '\\') :
    getLineNumberE t s = Except.ok (getLineNumber t s) ∧
    (getLineNumber t s = -1 ↔
      (t = "" ∨ s = "" ∨ ∀ i, ¬ MatchesAt (compiledToks s) t.data i)) ∧
    (getLineNumber t s ≠ -1 →
      ∃ i n, (∀ j, j < i → ¬ MatchesAt (compiledToks s) t.data j) ∧
        TokMatches (compiledToks s) ((t.data.drop i).take n) ∧
        getLineNumber t s =
          ((countNl (t.data.take i) + countNl ((t.data.drop i).take n) + 1
              : Nat) : Int)) := by
  refine ⟨getLineNumberE_ok t s hb, ?_⟩
  rw [getLineNumber_eq]
  by_cases hts : t = "" ∨ s = ""
  · rw [if_pos hts]
    constructor
    · constructor
      · intro _
        rcases hts with h | h
        · exact Or.inl h
        · exact Or.inr (Or.inl h)
      · intro _; rfl
    · intro h; exact absurd rfl h
  · rw [if_neg hts]
    push_neg at hts
    obtain ⟨ht, hs⟩ := hts
    cases hex : regexExecAux (compiledToks s) t.data with
    | none =>
      have hnone : ∀ i, ¬ MatchesAt (compiledToks s) t.data i := by
        intro i hocc
        obtain ⟨u, hpre, hm⟩ := (matchesAt_def _ _ _).mp hocc
        have hsome := matchFrom_complete _ u _ hm hpre
        rw [(regexExecAux_none_iff _ _).mp hex i] at hsome
        simp at hsome
      simp only []
      constructor
      · constructor
        · intro _
          exact Or.inr (Or.inr hnone)
        · intro _; trivial
      · intro h; exact absurd rfl h
    | some p =>
      obtain ⟨i, n⟩ := p
      obtain ⟨hm, hbefore⟩ := regexExecAux_some _ _ i n hex
      obtain ⟨hlen, htm⟩ := matchFrom_sound _ _ _ hm
      simp only []
      have hval : ((countNl (t.data.take i) + 1 +
            (countNl ((t.data.drop i).take n) + 1) - 1 : Nat) : Int) =
          ((countNl (t.data.take i) + countNl ((t.data.drop i).take n) + 1
              : Nat) : Int) := by
        congr 1
        omega
      constructor
      · constructor
        · intro habs
          exfalso
          omega
        · intro hrhs
          rcases hrhs with h | h | h
          · exact absurd h ht
          · exact absurd h hs
          · exact absurd ((matchesAt_def _ _ _).mpr
              ⟨(t.data.drop i).take n, List.take_prefix _ _, htm⟩) (h i)
      · intro _
        refine ⟨i, n, ?_, htm, hval⟩
        intro j hj hocc
        obtain ⟨u, hpre, hm2⟩ := (matchesAt_def _ _ _).mp hocc
        have hsome := matchFrom_complete _ u _ hm2 hpre
        rw [hbefore j hj] at hsome
        simp at hsome

/-- Witness for C4: searching `"cd"` (backslash-free) in `"ab\ncd"`
returns normally and reports the leftmost match with the line-number
formula. -/
theorem claim_C4_witness :
    getLineNumberE "ab\ncd" "cd" = Except.ok (getLineNumber "ab\ncd" "cd") ∧
    ∃ i n, (∀ j, j < i → ¬ MatchesAt (compiledToks "cd") ("ab\ncd" : String).data j) ∧
      TokMatches (compiledToks "cd") ((("ab\ncd" : String).data.drop i).take n) ∧
      getLineNumber "ab\ncd" "cd" =
        ((countNl (("ab\ncd" : String).data.take i) +
          countNl ((("ab\ncd" : String).data.drop i).take n) + 1 : Nat) : Int) :=
  ⟨(claim_C4 "ab\ncd" "cd" (by decide)).1,
   (claim_C4 "ab\ncd" "cd" (by decide)).2.2 (by decide)⟩

/-- Counterexample to C4 as stated: for the snippet consisting of a single
backslash — both arguments non-empty — the compiled pattern is the single
character backslash, which the `RegExp` constructor rejects (a backslash
at the end of a pattern is a syntax error), so `getLineNumber` throws on
utils.js line 67 and returns no integer at all, neither `-1` nor a line
number. -/
theorem claim_C4_cex :
    ("x" : String) ≠ "" ∧ ("\\" : String) ≠ "" ∧
    getLineNumberE "x" "\\" = Except.error () :=
  ⟨by decide, by decide, rfl⟩

/-- C5 (amended to snippets containing no backslash — the escape pass of
the source escapes the eighteen listed specials but not the backslash, so a
raw backslash reaches the regex engine as an escape prefix): for such a
snippet the compiled pattern is exactly the spec-side tokenization — every
special character anchored literally, every whitespace run one wildcard —
and whenever the snippet occurs in a non-empty text up to interior
whitespace differences, `getLineNumber` finds a match. -/
theorem claim_C5 (s t : String) (hb : ∀ c ∈ s.data, c ≠ '\\') :
    compiledToks s = snippetToks s.data ∧
    (s ≠ "" → t ≠ "" →
      (∃ i, MatchesAt (snippetToks s.data) t.data i) →
      getLineNumber t s ≠ -1) := by
  have h1 : compiledToks s = snippetToks s.data :=
    parse_compiled_eq_snippetToks s.data hb false
  refine ⟨h1, ?_⟩
  intro hs ht hocc heq
  obtain ⟨i, hocc⟩ := hocc
  obtain ⟨u, hpre, hm⟩ := (matchesAt_def _ _ _).mp hocc
  rw [getLineNumber_eq, if_neg (by push_neg; exact ⟨ht, hs⟩)] at heq
  cases hex : regexExecAux (compiledToks s) t.data with
  | none =>
    have hm2 : TokMatches (compiledToks s) u := by rw [h1]; exact hm
    have hsome := matchFrom_complete _ u _ hm2 hpre
    rw [(regexExecAux_none_iff _ _).mp hex i] at hsome
    simp at hsome
  | some p =>
    rw [hex] at heq
    simp only [] at heq
    exact absurd heq (natCast_ne_negOne _)

/-- Witness for C5: `"a  b"` (two spaces) still matches in `"xx\na b"`
(one space). -/
theorem claim_C5_witness : getLineNumber "xx\na b" "a  b" ≠ -1 :=
  (claim_C5 "a  b" "xx\na b" (by decide)).2 (by decide) (by decide)
    ⟨3, ("a b" : String).data, ⟨[], by decide⟩, by
      have he : snippetToks ("a  b" : String).data =
          snippetToks ("a b" : String).data := by decide
      rw [he]
      exact tokMatches_self _⟩

/-- Counterexample to C5 as stated: the snippet `\s` (backslash, `s`)
occurs verbatim in `x\sy`, yet `getLineNumber` returns `-1` — the
unescaped backslash turned the snippet into the whitespace class `\s`,
which matches nowhere in the text. -/
theorem claim_C5_cex :
    ("x\\sy" : String) = "x" ++ "\\s" ++ "y" ∧
    (∃ i, MatchesAt (snippetToks ("\\s" : String).data) ("x\\sy" : String).data i) ∧
    getLineNumber "x\\sy" "\\s" = -1 := by
  refine ⟨by decide, ⟨1, ?_⟩, by decide⟩
  exact (matchesAt_def _ _ _).mpr
    ⟨("\\s" : String).data, ⟨['y'], by decide⟩, tokMatches_self _⟩

/-- C7 (amended to destination paths free of whitespace and quote
characters — a quoted path containing a space never matches the capture
class `[^"\s]+`, so its section is skipped): for every such path `A.json`
the parser's header matcher recovers the canonical unquoted path from both
the unquoted and the quoted header form, and the concrete quoted `zh-CN`
diff yields a record with file `zh-CN.json`. -/
theorem claim_C7 (A : List Char) (hne : A ≠ [])
    (hA : ∀ c ∈ A, isJsWs c = false ∧ (c == '"') = false) :
    bPathMatch (' ' :: 'a' :: '/' ::
        ((A ++ ".json".toList) ++ (' ' :: 'b' :: '/' :: (A ++ ".json".toList)))) =
      some (A ++ ".json".toList) ∧
    bPathMatch (' ' :: '"' :: 'a' :: '/' ::
        ((A ++ ".json".toList) ++ ('"' :: ' ' :: '"' :: 'b' :: '/' ::
          ((A ++ ".json".toList) ++ ['"'])))) =
      some (A ++ ".json".toList) ∧
    (parseTranslationChangesFromDiff
        "diff --git \"a/zh-CN.json\" \"b/zh-CN.json\"\n--- \"a/zh-CN.json\"\n+++ \"b/zh-CN.json\"\n@@ -1,3 +1,3 @@\n+  \"starting_point\": \"起点\","
        [("starting_point", .str "Starting point")]).map (fun r => r.file) =
      ["zh-CN.json"] := by
  have hP : ∀ c ∈ A ++ ".json".toList, isJsWs c = false ∧ (c == '"') = false := by
    intro c hc
    rcases List.mem_append.mp hc with h | h
    · exact hA c h
    · have h5 : c = '.' ∨ c = 'j' ∨ c = 's' ∨ c = 'o' ∨ c = 'n' := by
        simpa using h
      rcases h5 with rfl | rfl | rfl | rfl | rfl <;> exact ⟨rfl, rfl⟩
  have hsuf : ".json".toList.isSuffixOf (A ++ ".json".toList) = true :=
    List.isSuffixOf_iff_suffix.mpr ⟨A, rfl⟩
  have hlen : 6 ≤ (A ++ ".json".toList).length := by
    have h1 : 1 ≤ A.length := by
      cases A with
      | nil => exact absurd rfl hne
      | cons _ _ => simp
    rw [List.length_append]
    have h5 : (".json".toList).length = 5 := rfl
    omega
  exact ⟨bPathMatch_unquoted _ hP hsuf hlen,
    bPathMatch_quoted _ hP hsuf hlen, by decide⟩

/-- Witness for C7 at the one-letter stem `x`: both header forms recover
`x.json`. -/
theorem claim_C7_witness :
    bPathMatch (' ' :: 'a' :: '/' ::
        ((['x'] ++ ".json".toList) ++ (' ' :: 'b' :: '/' :: (['x'] ++ ".json".toList)))) =
      some (['x'] ++ ".json".toList) ∧
    bPathMatch (' ' :: '"' :: 'a' :: '/' ::
        ((['x'] ++ ".json".toList) ++ ('"' :: ' ' :: '"' :: 'b' :: '/' ::
          ((['x'] ++ ".json".toList) ++ ['"'])))) =
      some (['x'] ++ ".json".toList) ∧
    (parseTranslationChangesFromDiff
        "diff --git \"a/zh-CN.json\" \"b/zh-CN.json\"\n--- \"a/zh-CN.json\"\n+++ \"b/zh-CN.json\"\n@@ -1,3 +1,3 @@\n+  \"starting_point\": \"起点\","
        [("starting_point", .str "Starting point")]).map (fun r => r.file) =
      ["zh-CN.json"] :=
  claim_C7 ['x'] (by decide) (by decide)

set_option maxRecDepth 1000000 in
/-- Counterexample to C7 as stated: a quoted header declaring the
destination `my file.json` — a path ending in `.json` — is not recovered:
the section has a qualifying added line, yet the parser produces no record
at all. -/
theorem claim_C7_cex :
    parseTranslationChangesFromDiff
        "diff --git \"a/my file.json\" \"b/my file.json\"\n--- \"a/my file.json\"\n+++ \"b/my file.json\"\n@@ -1 +1 @@\n+  \"k\": \"v\","
        [] = [] ∧
    isAddedMarked ("+  \"k\": \"v\"," : String).data = true ∧
    (kvExtract (("+  \"k\": \"v\"," : String).data.drop 1)).isSome = true := by
  decide

/-- C10: an all-whitespace snippet compiles to the sole wildcard `\s+`,
which matches the first maximal whitespace run of any text containing
whitespace, and `getLineNumber` returns the 1-based number of the last
line of that run (a `'\n'` inside the run counts as a spanned line, per
the `split('\n')` convention of the source). -/
theorem claim_C10 (t s : String) (ht : t ≠ "") (hs : s ≠ "")
    (hws : ∀ c ∈ s.data, isJsWs c = true)
    (hex : ∃ c ∈ t.data, isJsWs c = true) :
    getLineNumber t s ≠ -1 ∧
    getLineNumber t s =
      ((countNl (t.data.take (firstWsIdx t.data +
          wsRunLen (t.data.drop (firstWsIdx t.data)))) + 1 : Nat) : Int) := by
  have hsne : s.data ≠ [] := by
    intro h
    apply hs
    cases s with
    | mk l =>
      simp only [String.data] at h
      rw [h]
  have htoks := compiledToks_allws s hsne hws
  have hval := execAux_wsPlus t.data hex
  rw [getLineNumber_eq, if_neg (by push_neg; exact ⟨ht, hs⟩), htoks, hval]
  simp only []
  have hsplit : countNl (t.data.take (firstWsIdx t.data)) +
      countNl ((t.data.drop (firstWsIdx t.data)).take
        (wsRunLen (t.data.drop (firstWsIdx t.data)))) =
      countNl (t.data.take (firstWsIdx t.data +
        wsRunLen (t.data.drop (firstWsIdx t.data)))) := by
    rw [List.take_add]
    rw [countNl, countNl, countNl, List.count_append]
  constructor
  · intro habs
    exact absurd habs (natCast_ne_negOne _)
  · have : countNl (t.data.take (firstWsIdx t.data)) + 1 +
        (countNl ((t.data.drop (firstWsIdx t.data)).take
          (wsRunLen (t.data.drop (firstWsIdx t.data)))) + 1) - 1 =
        countNl (t.data.take (firstWsIdx t.data +
          wsRunLen (t.data.drop (firstWsIdx t.data)))) + 1 := by
      omega
    rw [this]

/-- Witness for C10: the single-space snippet finds the run `" \n"` of
`"ab \ncd"` and reports line 2. -/
theorem claim_C10_witness :
    getLineNumber "ab \ncd" " " ≠ -1 ∧
    getLineNumber "ab \ncd" " " =
      ((countNl (("ab \ncd" : String).data.take (firstWsIdx ("ab \ncd" : String).data +
          wsRunLen (("ab \ncd" : String).data.drop
            (firstWsIdx ("ab \ncd" : String).data)))) + 1 : Nat) : Int) :=
  claim_C10 "ab \ncd" " " (by decide) (by decide) (by decide) (by decide)

end AbrpReview
